import Mathlib

/-!
# Verification of the `signedjson` canonical-JSON signing library

This file embeds the library's data model and operations in Lean 4 and
proves the specification claims about them.

* `Json` models `serde_json::Value` (objects are association lists; the
  `BTreeMap` representation invariant is the `sortedDeep` predicate, and
  `toValue` models `serde_json::to_value`, which rebuilds every object as
  a `BTreeMap`, i.e. sorts the keys).
* `encode_canonically` / `canonicalize` model `src/ser/mod.rs`.
* `Sigs` with `get_signature` / `add_signature` / … models the
  `Signatures`/`SignaturesMut` impls for
  `BTreeMap<String, BTreeMap<String, S>>` in `src/signed.rs`.
* The ED25519 primitive (sodiumoxide) and the base64 codec
  (rustc_serialize) are external library services; they are modelled from
  the spec's external-interface contracts (§6).
* `FrozenStruct` and the key types model `src/frozen.rs` and
  `src/keys.rs`.
-/

/-! ## JSON values

`Json` models `serde_json::Value`.  Numbers are modelled as integers
(the claims under study do not involve floating-point values).  Objects
are association lists of key/value pairs; `serde_json`'s `BTreeMap`
objects correspond to lists whose keys are strictly sorted. -/

mutual

inductive Json where
  | null : Json
  | bool : Bool → Json
  | num : Int → Json
  | str : String → Json
  | arr : JsonList → Json
  | obj : JsonObj → Json
deriving DecidableEq

inductive JsonList where
  | nil : JsonList
  | cons : Json → JsonList → JsonList
deriving DecidableEq

inductive JsonObj where
  | nil : JsonObj
  | cons : String → Json → JsonObj → JsonObj
deriving DecidableEq

end

/-- First-match lookup in an object, modelling `BTreeMap::get` (on the
`BTreeMap` representation keys are unique, so first-match is the match). -/
def objLookup (k : String) : JsonObj → Option Json
  | .nil => none
  | .cons k' v tl => if k = k' then some v else objLookup k tl

/-- The list of keys of an object, in representation order. -/
def objKeys : JsonObj → List String
  | .nil => []
  | .cons k _ tl => k :: objKeys tl

/-- Order-preserving removal of the entry with key `k` (first occurrence),
modelling `BTreeMap::remove`. -/
def objRemove (k : String) : JsonObj → JsonObj
  | .nil => .nil
  | .cons k' v tl => if k = k' then tl else .cons k' v (objRemove k tl)

/-- Sorted insertion replacing an existing entry, modelling
`BTreeMap::insert` (per-level key ordering of `String` is byte-wise,
which coincides with `String`'s order in Lean). -/
def objInsert (k : String) (v : Json) : JsonObj → JsonObj
  | .nil => .cons k v .nil
  | .cons k' v' tl =>
    if k < k' then .cons k v (.cons k' v' tl)
    else if k = k' then .cons k v tl
    else .cons k' v' (objInsert k v tl)

mutual

/-- Models `serde_json::to_value`: rebuilds every object as a `BTreeMap`,
so keys end up strictly sorted at every level. On values that already
satisfy the `BTreeMap` invariant this is the identity. -/
def toValue : Json → Json
  | .obj o => .obj (toValueObj o)
  | .arr l => .arr (toValueList l)
  | .str s => .str s
  | .num n => .num n
  | .bool b => .bool b
  | .null => .null

def toValueList : JsonList → JsonList
  | .nil => .nil
  | .cons v tl => .cons (toValue v) (toValueList tl)

def toValueObj : JsonObj → JsonObj
  | .nil => .nil
  | .cons k v tl => objInsert k (toValue v) (toValueObj tl)

end

mutual

/-- Keys strictly ascending at every nesting level: the representation
invariant of `serde_json::Value` built over `BTreeMap`s. -/
def sortedDeep : Json → Bool
  | .obj o => sortedDeepObj o
  | .arr l => sortedDeepList l
  | .str _ => true
  | .num _ => true
  | .bool _ => true
  | .null => true

def sortedDeepList : JsonList → Bool
  | .nil => true
  | .cons v tl => sortedDeep v && sortedDeepList tl

def sortedDeepObj : JsonObj → Bool
  | .nil => true
  | .cons _ v .nil => sortedDeep v
  | .cons k v (.cons k' v' tl) =>
    decide (k < k') && sortedDeep v && sortedDeepObj (.cons k' v' tl)

end

/-! ## Serialization (`serde_json::to_vec`)

`serde_json` writes compact JSON: no whitespace between tokens.  String
contents are escaped: quote, backslash, the short control escapes, and
`\u00XX` for the remaining control characters. -/

/-- Hexadecimal digit character (lowercase), used in `\u00XX` escapes. -/
def hexChar (n : Nat) : Char :=
  if n < 10 then Char.ofNat (48 + n) else Char.ofNat (87 + n)

/-- JSON escaping of one character, as the serializer performs it. -/
def escapeChar (c : Char) : List Char :=
  if c = '"' then ['\\', '"']
  else if c = '\\' then ['\\', '\\']
  else if c = Char.ofNat 8 then ['\\', 'b']
  else if c = Char.ofNat 12 then ['\\', 'f']
  else if c = '\n' then ['\\', 'n']
  else if c = '\r' then ['\\', 'r']
  else if c = '\t' then ['\\', 't']
  else if c.toNat < 32 then
    ['\\', 'u', '0', '0', hexChar (c.toNat / 16), hexChar (c.toNat % 16)]
  else [c]

def escapeStr : List Char → List Char
  | [] => []
  | c :: cs => escapeChar c ++ escapeStr cs

/-- Decimal digits of a natural number, most significant first. -/
def natChars (n : Nat) : List Char :=
  if h : n < 10 then [Char.ofNat (48 + n)]
  else natChars (n / 10) ++ [Char.ofNat (48 + n % 10)]
decreasing_by exact Nat.div_lt_self (by omega) (by omega)

/-- Minimal decimal form of an integer. -/
def intChars (i : Int) : List Char :=
  if i < 0 then '-' :: natChars i.natAbs else natChars i.natAbs

/-- A serialized string literal: quote, escaped content, quote. -/
def strLit (s : String) : List Char :=
  '"' :: (escapeStr s.data ++ ['"'])

mutual

/-- Models `serde_json::to_vec` on a value: compact serialization,
object fields and array elements emitted in representation order. -/
def jser : Json → List Char
  | .obj o => '{' :: (jserObj o ++ ['}'])
  | .arr l => '[' :: (jserList l ++ [']'])
  | .str s => strLit s
  | .num i => intChars i
  | .bool b => (cond b "true" "false").data
  | .null => ("null").data

def jserList : JsonList → List Char
  | .nil => []
  | .cons v .nil => jser v
  | .cons v (.cons w tl) => jser v ++ ',' :: jserList (.cons w tl)

def jserObj : JsonObj → List Char
  | .nil => []
  | .cons k v .nil => strLit k ++ ':' :: jser v
  | .cons k v (.cons k' v' tl) =>
    strLit k ++ ':' :: jser v ++ ',' :: jserObj (.cons k' v' tl)

end

/-! ## Whitespace compaction (`indolentjson::compact`)

Modelled from the spec: the whitespace-compaction utility (§6, an
external collaborator) strips insignificant whitespace from already-valid
encoded text without a re-parse; it tracks whether the scan position is
inside a string literal (and whether the previous character was a
backslash escape) and drops whitespace characters outside strings. -/

/-- Scanner state: (inside string literal, previous char was `\`). -/
abbrev SState := Bool × Bool

def isWsChar (c : Char) : Bool :=
  c = ' ' || c = '\t' || c = '\n' || c = '\r'

/-- One step of the string-literal tracking automaton. -/
def sstep (st : SState) (c : Char) : SState :=
  if st.1 then
    if st.2 then (true, false)
    else if c = '\\' then (true, true)
    else if c = '"' then (false, false)
    else (true, false)
  else if c = '"' then (true, false)
  else (false, false)

/-- Final scanner state after a character sequence. -/
def scanEnd (st : SState) : List Char → SState
  | [] => st
  | c :: cs => scanEnd (sstep st c) cs

/-- Whitespace compaction from a given scanner state: drop whitespace
characters that occur outside string literals, keep everything else. -/
def compactFrom (st : SState) : List Char → List Char
  | [] => []
  | c :: cs =>
    if !st.1 && isWsChar c then compactFrom (sstep st c) cs
    else c :: compactFrom (sstep st c) cs

/-- Models `indolentjson::compact::compact`. -/
def compact (s : List Char) : List Char := compactFrom (false, false) s

/-- True iff the text contains no whitespace outside string literals,
i.e. no insignificant whitespace. -/
def wsFreeFrom (st : SState) : List Char → Bool
  | [] => true
  | c :: cs => (st.1 || !isWsChar c) && wsFreeFrom (sstep st c) cs

def wsFree (s : List Char) : Bool := wsFreeFrom (false, false) s

/-! ## The canonical encoder (`src/ser/mod.rs`) -/

/-- Top-level removal of the reserved keys, as `encode_canonically` does
via `Value::as_object_mut` (non-objects are untouched; the removal does
not recurse). -/
def stripTop : Json → Json
  | .obj o => .obj (objRemove "unsigned" (objRemove "signatures" o))
  | v => v

/-- Models `encode_canonically`: convert to a `Value` (`toValue`), remove
the top-level `signatures` and `unsigned` keys, serialize, compact. -/
def encode_canonically (v : Json) : List Char :=
  compact (jser (stripTop (toValue v)))

/-! ## JSON parsing (`serde_json::from_slice`)

A fuel-indexed recursive-descent parser for the structured-value library
service.  Objects are built by `BTreeMap` insertion (`objInsert`, last
entry wins), mirroring how `serde_json` builds `Value` objects. -/

def skipWs : List Char → List Char
  | [] => []
  | c :: cs => if isWsChar c then skipWs cs else c :: cs

def hexVal (c : Char) : Option Nat :=
  let n := c.toNat
  if 48 ≤ n && n ≤ 57 then some (n - 48)
  else if 97 ≤ n && n ≤ 102 then some (n - 87)
  else if 65 ≤ n && n ≤ 70 then some (n - 55)
  else none

def digitVal (c : Char) : Option Nat :=
  let n := c.toNat
  if 48 ≤ n && n ≤ 57 then some (n - 48) else none

def unescapeChar (c : Char) : Option Char :=
  if c = '"' then some '"'
  else if c = '\\' then some '\\'
  else if c = '/' then some '/'
  else if c = 'b' then some (Char.ofNat 8)
  else if c = 'f' then some (Char.ofNat 12)
  else if c = 'n' then some '\n'
  else if c = 'r' then some '\r'
  else if c = 't' then some '\t'
  else none

/-- Parse the body of a string literal (after the opening quote); returns
the decoded characters and the remaining input after the closing quote. -/
def parseStringBody : Nat → List Char → Except String (List Char × List Char)
  | 0, _ => .error "recursion limit exceeded"
  | _, [] => .error "unexpected end of input in string"
  | fuel + 1, c :: cs =>
    if c = '"' then .ok ([], cs)
    else if c = '\\' then
      match cs with
      | [] => .error "unexpected end of input in escape"
      | e :: cs' =>
        if e = 'u' then
          match cs' with
          | h1 :: h2 :: h3 :: h4 :: cs'' =>
            match hexVal h1, hexVal h2, hexVal h3, hexVal h4 with
            | some a, some b, some c2, some d => do
                let (rest, rem) ← parseStringBody fuel cs''
                .ok (Char.ofNat (((a * 16 + b) * 16 + c2) * 16 + d) :: rest, rem)
            | _, _, _, _ => .error "invalid unicode escape"
          | _ => .error "invalid unicode escape"
        else
          match unescapeChar e with
          | some u => do
              let (rest, rem) ← parseStringBody fuel cs'
              .ok (u :: rest, rem)
          | none => .error "invalid escape"
    else do
      let (rest, rem) ← parseStringBody fuel cs
      .ok (c :: rest, rem)

/-- Accumulate decimal digits. -/
def parseNatAux : List Char → Nat → Nat × List Char
  | [], acc => (acc, [])
  | c :: cs, acc =>
    match digitVal c with
    | some d => parseNatAux cs (acc * 10 + d)
    | none => (acc, c :: cs)

/-- Parse an integer (optional minus sign, at least one digit). -/
def parseInt : List Char → Except String (Int × List Char)
  | [] => .error "unexpected end of input in number"
  | '-' :: cs =>
    match cs with
    | c :: _ =>
      if (digitVal c).isSome then
        let (n, rest) := parseNatAux cs 0
        .ok (-(n : Int), rest)
      else .error "invalid number"
    | [] => .error "invalid number"
  | c :: cs =>
    if (digitVal c).isSome then
      let (n, rest) := parseNatAux (c :: cs) 0
      .ok ((n : Int), rest)
    else .error "invalid number"

mutual

/-- Parse one JSON value. -/
def parseVal : Nat → List Char → Except String (Json × List Char)
  | 0, _ => .error "recursion limit exceeded"
  | fuel + 1, s =>
    match s with
    | [] => .error "unexpected end of input"
    | 'n' :: 'u' :: 'l' :: 'l' :: rest => .ok (.null, rest)
    | 't' :: 'r' :: 'u' :: 'e' :: rest => .ok (.bool true, rest)
    | 'f' :: 'a' :: 'l' :: 's' :: 'e' :: rest => .ok (.bool false, rest)
    | '"' :: rest => do
        let (content, rem) ← parseStringBody (rest.length + 1) rest
        .ok (.str ⟨content⟩, rem)
    | '[' :: rest =>
        match skipWs rest with
        | ']' :: rem => .ok (.arr .nil, rem)
        | other => do
            let (items, rem) ← parseArrItems fuel other
            .ok (.arr items, rem)
    | '{' :: rest =>
        match skipWs rest with
        | '}' :: rem => .ok (.obj .nil, rem)
        | other => do
            let (fields, rem) ← parseObjFields fuel other
            .ok (.obj fields, rem)
    | other => do
        let (i, rest) ← parseInt other
        .ok (.num i, rest)

/-- Parse one-or-more comma-separated array elements then `]`. -/
def parseArrItems : Nat → List Char → Except String (JsonList × List Char)
  | 0, _ => .error "recursion limit exceeded"
  | fuel + 1, s => do
    let (v, rest) ← parseVal fuel s
    match skipWs rest with
    | ',' :: more => do
        let (tl, rem) ← parseArrItems fuel (skipWs more)
        .ok (.cons v tl, rem)
    | ']' :: rem => .ok (.cons v .nil, rem)
    | _ => .error "expected comma or close bracket"

/-- Parse one-or-more `"key": value` object entries then `}`.  Entries are
inserted in input order with `objInsert` (`BTreeMap::insert`): keys end
up sorted and a repeated key keeps the last value. -/
def parseObjFields : Nat → List Char → Except String (JsonObj × List Char)
  | 0, _ => .error "recursion limit exceeded"
  | fuel + 1, s =>
    match s with
    | '"' :: rest => do
        let (keyChars, afterKey) ← parseStringBody (rest.length + 1) rest
        match skipWs afterKey with
        | ':' :: afterColon => do
            let (v, rest') ← parseVal fuel (skipWs afterColon)
            match skipWs rest' with
            | ',' :: more => do
                let (tl, rem) ← parseObjFields fuel (skipWs more)
                .ok (objInsert ⟨keyChars⟩ v tl, rem)
            | '}' :: rem => .ok (objInsert ⟨keyChars⟩ v .nil, rem)
            | _ => .error "expected comma or close brace"
        | _ => .error "expected colon"
    | _ => .error "expected object key"

end

/-- Models `serde_json::from_slice`: parse a complete JSON document,
allowing surrounding whitespace and nothing else. -/
def parseJson (s : List Char) : Except String Json := do
  let (v, rest) ← parseVal (s.length + 2) (skipWs s)
  if skipWs rest = [] then .ok v else .error "trailing characters"

/-- Models `canonicalize` in `src/ser/mod.rs`: parse the raw bytes, then
`encode_canonically` the resulting value. -/
def canonicalize (bytes : List Char) : Except String (List Char) :=
  (parseJson bytes).map encode_canonically

/-! ## Base64 (rustc_serialize, `UNPADDED_BASE64` configuration)

Modelled from the spec: the base64 codec is an external collaborator
(§6) providing unpadded standard-charset decode; the decoder also
tolerates `=` padding and newlines, and rejects invalid characters and
impossible lengths. -/

def b64Val (c : Char) : Option Nat :=
  let n := c.toNat
  if 65 ≤ n && n ≤ 90 then some (n - 65)
  else if 97 ≤ n && n ≤ 122 then some (n - 71)
  else if 48 ≤ n && n ≤ 57 then some (n + 4)
  else if c = '+' then some 62
  else if c = '/' then some 63
  else none

/-- Decode groups of base64 characters into bytes; a remainder of one
character cannot encode a whole byte and is rejected. -/
def b64Decode : List Char → Option (List Nat)
  | [] => some []
  | [_] => none
  | [c1, c2] => do
      let v1 ← b64Val c1
      let v2 ← b64Val c2
      pure [v1 * 4 + v2 / 16]
  | [c1, c2, c3] => do
      let v1 ← b64Val c1
      let v2 ← b64Val c2
      let v3 ← b64Val c3
      pure [v1 * 4 + v2 / 16, (v2 % 16) * 16 + v3 / 4]
  | c1 :: c2 :: c3 :: c4 :: rest => do
      let v1 ← b64Val c1
      let v2 ← b64Val c2
      let v3 ← b64Val c3
      let v4 ← b64Val c4
      let tail ← b64Decode rest
      pure ((v1 * 4 + v2 / 16) :: ((v2 % 16) * 16 + v3 / 4) :: ((v3 % 4) * 64 + v4) :: tail)

/-- Models `FromBase64::from_base64`. -/
def fromBase64 (s : List Char) : Option (List Nat) :=
  let cleaned := s.filter fun c => !(c = '\n' || c = '\r')
  b64Decode ((cleaned.reverse.dropWhile (· = '=')).reverse)

/-! ## The ED25519 primitive (`sodiumoxide::crypto::sign`)

Modelled from the spec: the ED25519 primitive library is an external
collaborator (§6) providing keypair derivation from a fixed-length
32-byte seed, deterministic detached signing producing a 64-byte
signature, detached verification, and fixed-length validation of
key/signature bytes.  The model keys are derived from the seed and
verification recomputes the deterministic signature from the public
key's material and the message. -/

namespace sign

def SEEDBYTES : Nat := 32
def PUBLICKEYBYTES : Nat := 32
def SIGNATUREBYTES : Nat := 64

structure Seed where
  bytes : List Nat
deriving DecidableEq

structure PublicKey where
  bytes : List Nat
deriving DecidableEq

structure SecretKey where
  bytes : List Nat
deriving DecidableEq

structure Signature where
  bytes : List Nat
deriving DecidableEq

/-- Models `Seed::from_slice`: exactly 32 bytes or no seed. -/
def Seed.from_slice (l : List Nat) : Option Seed :=
  if l.length = SEEDBYTES then some ⟨l⟩ else none

/-- Models `PublicKey::from_slice`: exactly 32 bytes or no key. -/
def PublicKey.from_slice (l : List Nat) : Option PublicKey :=
  if l.length = PUBLICKEYBYTES then some ⟨l⟩ else none

/-- Models `Signature::from_slice`: exactly 64 bytes or no signature. -/
def Signature.from_slice (l : List Nat) : Option Signature :=
  if l.length = SIGNATUREBYTES then some ⟨l⟩ else none

/-- Deterministic keypair derivation from a seed. -/
def keypair_from_seed (s : Seed) : PublicKey × SecretKey :=
  (⟨s.bytes⟩, ⟨s.bytes⟩)

/-- Deterministic 64-byte signature material from key bytes and message. -/
def sigMix (key : List Nat) (msg : List Char) : List Nat :=
  let h := msg.foldl (fun a c => (a * 31 + c.toNat) % 4294967296) 7
  let k := key.foldl (fun a b => (a * 131 + b) % 4294967296) 3
  (List.range SIGNATUREBYTES).map fun i => (h + k * (i + 1) + i) % 256

/-- Models `sign_detached`: deterministic detached signature of the message. -/
def sign_detached (msg : List Char) (sk : SecretKey) : Signature :=
  ⟨sigMix sk.bytes msg⟩

/-- Models `verify_detached`: checks the signature against message and public key. -/
def verify_detached (sig : Signature) (msg : List Char) (pk : PublicKey) : Bool :=
  sig.bytes = sigMix pk.bytes msg

end sign

/-! ## The Signature Container (`src/signed.rs`)

`BTreeMap<String, BTreeMap<String, S>>` is modelled as an association
list of association lists; the `BTreeMap` representation invariant
(strictly sorted unique keys at both levels) is `wfSigs`. -/

/-- Models `BTreeMap::get` (first-match lookup). -/
def alLookup {α : Type} (k : String) : List (String × α) → Option α
  | [] => none
  | p :: tl => if k = p.1 then some p.2 else alLookup k tl

/-- Models `BTreeMap::insert`: sorted insertion replacing an existing entry. -/
def alInsert {α : Type} (k : String) (v : α) : List (String × α) → List (String × α)
  | [] => [(k, v)]
  | p :: tl =>
    if k < p.1 then (k, v) :: p :: tl
    else if k = p.1 then (k, v) :: tl
    else p :: alInsert k v tl

/-- Models `BTreeMap::entry(k).or_insert_with(d)` followed by applying `f` to
the entry's value. -/
def alUpdate {α : Type} (k : String) (f : α → α) (d : α) : List (String × α) → List (String × α)
  | [] => [(k, f d)]
  | p :: tl =>
    if k < p.1 then (k, f d) :: p :: tl
    else if k = p.1 then (k, f p.2) :: tl
    else p :: alUpdate k f d tl

/-- Keys strictly ascending (the `BTreeMap` invariant for one level). -/
def alSorted {α : Type} : List (String × α) → Bool
  | [] => true
  | [_] => true
  | p :: q :: tl => decide (p.1 < q.1) && alSorted (q :: tl)

/-- The Signature Container: entity → key-id → signature. -/
abbrev Sigs := List (String × List (String × sign.Signature))

/-- Both levels sorted: the representation invariant of the container. -/
def wfSigs (m : Sigs) : Bool :=
  alSorted m && m.all fun p => alSorted p.2

/-- Models `Signatures::get_signature`. -/
def get_signature (entity key_id : String) (m : Sigs) : Option sign.Signature :=
  (alLookup entity m).bind (alLookup key_id)

/-- Models `Signatures::get_signatures_for_entity`: filter entries whose key
equals `entity`, then flatten their inner maps. -/
def get_signatures_for_entity (entity : String) (m : Sigs) : List (String × sign.Signature) :=
  (m.filterMap fun p => if p.1 = entity then some p.2 else none).flatten

/-- Models `Signatures::get_signatures`: full enumeration of triples. -/
def get_signatures (m : Sigs) : List (String × String × sign.Signature) :=
  m.flatMap fun p => p.2.map fun q => (p.1, q.1, q.2)

/-- Models `Signatures::get_entities`. -/
def get_entities (m : Sigs) : List String :=
  m.map (·.1)

/-- Models `SignaturesMut::add_signature`:
`entry(entity).or_insert_with(new).insert(key_id, sig)`. -/
def add_signature (entity key_id : String) (sig : sign.Signature) (m : Sigs) : Sigs :=
  alUpdate entity (alInsert key_id sig) [] m

/-- Models `SignaturesMut::clear`. -/
def clearSigs (_ : Sigs) : Sigs := []

/-! ## Key abstractions (`src/keys.rs`)

The Rust traits `Signed`/`SignedMut`/`AsCanonical` are modelled by
explicit operation records, so the named sign/verify operations stay
generic in the signed-object type exactly as in the source. -/

/-- The `Signed` + `SignedMut` capabilities of a type `T`: read access to
its Signature Container and mutation of that container only. -/
structure SignedOps (T : Type) where
  signatures : T → Sigs
  set_signatures : T → Sigs → T

/-- Additionally the `AsCanonical` and `GetUnsigned` capabilities,
required by `FrozenStruct::wrap`. -/
structure CanonOps (T : Type) extends SignedOps T where
  as_canonical : T → List Char
  get_unsigned : T → Option Json

/-- Models `VerifyResult` (a must-use tri-state outcome). -/
inductive VerifyResult where
  | Valid : VerifyResult
  | Invalid : VerifyResult
  | Unsigned : VerifyResult
deriving DecidableEq

/-- Models `VerifyResultDetached`. -/
inductive VerifyResultDetached where
  | Valid : VerifyResultDetached
  | Invalid : VerifyResultDetached
deriving DecidableEq

/-- Models `SigningKeyPair`. -/
structure SigningKeyPair where
  public : sign.PublicKey
  secret : sign.SecretKey
  key_id : String
  entity : String
deriving DecidableEq

/-- Models `SigningKeyPair::from_seed`. -/
def SigningKeyPair.from_seed (seed : List Nat) (entity key_id : String) :
    Option SigningKeyPair :=
  (sign.Seed.from_slice seed).map fun s =>
    let (p, sk) := sign.keypair_from_seed s
    { public := p, secret := sk, key_id := key_id, entity := entity }

/-- Models `VerifyKey`. -/
structure VerifyKey where
  public : sign.PublicKey
  key_id : String
  entity : String
deriving DecidableEq

/-- Models `VerifyKey::from_slice`. -/
def VerifyKey.from_slice (slice : List Nat) (entity key_id : String) : Option VerifyKey :=
  (sign.PublicKey.from_slice slice).map fun pk =>
    { public := pk, entity := entity, key_id := key_id }

/-- Models `VerifyKey::from_b64`. -/
def VerifyKey.from_b64 (b64 : List Char) (entity key_id : String) : Option VerifyKey :=
  ((fromBase64 b64).bind sign.PublicKey.from_slice).map fun pk =>
    { public := pk, entity := entity, key_id := key_id }

/-- Models `VerifyKey::from_signing_key`. -/
def VerifyKey.from_signing_key (kp : SigningKeyPair) : VerifyKey :=
  { public := kp.public, entity := kp.entity, key_id := kp.key_id }

/-- Models `NamedPublicKey::verify`, generic over any `T : AsCanonical + Signed`
(given by `sops` and `canon`): look up `(entity, key_id)` in the object's
container; absent ⇒ `Unsigned`; present ⇒ detached verification against
the object's canonical bytes decides `Valid`/`Invalid`. -/
def NamedPublicKey.verify {T : Type} (key : VerifyKey) (sops : SignedOps T)
    (canon : T → List Char) (obj : T) : VerifyResult :=
  match get_signature key.entity key.key_id (sops.signatures obj) with
  | some sig =>
    if sign.verify_detached sig (canon obj) key.public then .Valid else .Invalid
  | none => .Unsigned

/-- Models `NamedSecretKey::sign`, generic over any `T : AsCanonical + SignedMut`:
sign the object's canonical bytes detached, then `add_signature` at
`(entity, key_id)` through `signatures_mut`. -/
def NamedSecretKey.sign {T : Type} (key : SigningKeyPair) (sops : SignedOps T)
    (canon : T → List Char) (obj : T) : T :=
  let sig := sign.sign_detached (canon obj) key.secret
  sops.set_signatures obj (add_signature key.entity key.key_id sig (sops.signatures obj))

/-! ## `SimpleSigned` and its deserializer (`src/signed.rs`) -/

/-- Models `SimpleSigned`: a value consisting of just a Signature Container. -/
structure SimpleSigned where
  signatures : Sigs
deriving DecidableEq

/-- The `Signed`/`SignedMut` impls of `SimpleSigned`. -/
def simpleOps : SignedOps SimpleSigned :=
  { signatures := SimpleSigned.signatures,
    set_signatures := fun _ s => ⟨s⟩ }

/-- Models `Base64Signature::deserialize` applied to the decoded JSON string:
base64-decode, then `Signature::from_slice`; anything but exactly 64
decoded bytes is an invalid-value error. -/
def Base64Signature.deserialize (s : String) : Except String sign.Signature :=
  match (fromBase64 s.data).bind sign.Signature.from_slice with
  | some sig => .ok sig
  | none => .error "Invalid signature"

/-- Deserialize the inner `BTreeMap<String, Base64Signature>`. -/
def decodeSigInner : JsonObj → Except String (List (String × sign.Signature))
  | .nil => .ok []
  | .cons k sv tl => do
    let s ← match sv with
      | .str str => Base64Signature.deserialize str
      | _ => .error "invalid type"
    let rest ← decodeSigInner tl
    .ok (alInsert k s rest)

/-- Deserialize the outer `BTreeMap<String, BTreeMap<String, Base64Signature>>`. -/
def decodeSigOuter : JsonObj → Except String Sigs
  | .nil => .ok []
  | .cons e iv tl => do
    let inner ← match iv with
      | .obj io => decodeSigInner io
      | _ => .error "invalid type"
    let rest ← decodeSigOuter tl
    .ok (alInsert e inner rest)

def decodeSigMap : Json → Except String Sigs
  | .obj o => decodeSigOuter o
  | _ => .error "invalid type"

/-- The `Deserialize` impl of `SimpleSigned`: take the `signatures` field
if present (a missing field deserializes to the empty map), ignore every
other field. -/
def decodeSimpleSigned : Json → Except String SimpleSigned
  | .obj o =>
    match objLookup "signatures" o with
    | some sv => (decodeSigMap sv).map fun m => ⟨m⟩
    | none => .ok ⟨[]⟩
  | _ => .error "invalid type"

/-! ## The Frozen wrapper (`src/frozen.rs`) -/

/-- The `unsigned`-removal step of `from_slice`: if the parsed value is
an object with an `unsigned` field, return the removed field's value and
the object without it (`Value::as_object_mut` + `Map::remove`). -/
def removeUnsignedTop : Json → Option Json × Json
  | .obj o => (objLookup "unsigned" o, .obj (objRemove "unsigned" o))
  | v => (none, v)

/-- Models `FrozenStruct`: the live parsed value, the optional cached full
serialization, the canonical bytes, and the optional unsigned side
value. -/
structure FrozenStruct (T U : Type) where
  parsed : T
  serialized : Option (List Char)
  canonical : List Char
  unsigned : Option U

namespace FrozenStruct

/-- Models `FrozenStruct::wrap`: clear the value's Signature Container through
`signatures_mut`, compute the canonical bytes of the cleared value,
extract its unsigned side value; no cached serialization. -/
def wrap {T : Type} (ops : CanonOps T) (wrapped : T) : FrozenStruct T Json :=
  let cleared := ops.set_signatures wrapped (clearSigs (ops.signatures wrapped))
  { canonical := ops.as_canonical cleared,
    unsigned := ops.get_unsigned cleared,
    parsed := cleared,
    serialized := none }

/-- The `Signed`/`SignedMut` impls of `FrozenStruct`: reads delegate to
the parsed value; `signatures_mut` invalidates the cached serialization
and hands out the parsed value's container. -/
def sigOps {T U : Type} (ops : SignedOps T) : SignedOps (FrozenStruct T U) :=
  { signatures := fun fs => ops.signatures fs.parsed,
    set_signatures := fun fs s =>
      { fs with serialized := none, parsed := ops.set_signatures fs.parsed s } }

/-- The `AsCanonical` impl of `FrozenStruct`: the stored canonical bytes. -/
def as_canonical {T U : Type} (fs : FrozenStruct T U) : List Char :=
  fs.canonical

/-- One mutation session through `signatures_mut`: the caller holds
`&mut SignaturesMut` and can apply an arbitrary container mutation `f`
(add, remove, clear, …). -/
def applySigMut {T U : Type} (ops : SignedOps T) (f : Sigs → Sigs)
    (fs : FrozenStruct T U) : FrozenStruct T U :=
  (sigOps ops).set_signatures fs (f ((sigOps ops).signatures fs))

/-- The `unsigned`-decoding step of `from_slice`:
`Some(try!(from_value(val)))` on a removed field, `None` otherwise. -/
def decodeUnsignedOpt {U : Type} (decU : Json → Except String U) :
    Option Json → Except String (Option U)
  | some uv =>
    match decU uv with
    | .error e => .error e
    | .ok u => .ok (some u)
  | none => .ok none

/-- The body of `from_slice` after the generic parse succeeded. -/
def from_sliceParsed {T U : Type} (decT : Json → Except String T)
    (decU : Json → Except String U) (bytes : List Char) (val : Json) :
    Except String (FrozenStruct T U) :=
  match decodeUnsignedOpt decU (removeUnsignedTop val).1 with
  | .error e => .error e
  | .ok unsigned =>
    match decT (removeUnsignedTop val).2 with
    | .error e => .error e
    | .ok parsed =>
      match canonicalize bytes with
      | .error e => .error e
      | .ok canonical =>
        .ok { parsed := parsed, serialized := some bytes,
              canonical := canonical, unsigned := unsigned }

def from_sliceAux {T U : Type} (decT : Json → Except String T)
    (decU : Json → Except String U) (bytes : List Char) :
    Except String Json → Except String (FrozenStruct T U)
  | .error e => .error e
  | .ok val => from_sliceParsed decT decU bytes val

/-- Models `FrozenStruct::from_slice`: parse generically; if the value is an
object with an `unsigned` field, remove it and decode it separately;
decode the remainder into the live value; canonicalize the original
bytes; cache the original bytes.  Every `try!` propagates the error. -/
def from_slice {T U : Type} (decT : Json → Except String T)
    (decU : Json → Except String U) (bytes : List Char) :
    Except String (FrozenStruct T U) :=
  from_sliceAux decT decU bytes (parseJson bytes)

end FrozenStruct

/-! ## Derived operations used in the claims -/

/-- A sequence of mutation sessions through `signatures_mut`. -/
def applySigMuts {T U : Type} (ops : SignedOps T) (fs : FrozenStruct T U)
    (muts : List (Sigs → Sigs)) : FrozenStruct T U :=
  muts.foldl (fun acc f => FrozenStruct.applySigMut ops f acc) fs

def c5Bytes : List Char := ("\x7b\"unsigned\":true\x7d").data

def c5Frozen : FrozenStruct SimpleSigned Json :=
  ⟨⟨[]⟩, some c5Bytes, ['{', '}'], some (Json.bool true)⟩

/-- A character the scanner passes through outside strings without
changing state: not whitespace and not a quote. -/
abbrev plainChar (c : Char) : Prop :=
    isWsChar c = false ∧ c ≠ '"'

/-- Whether a value is a JSON object. -/
def isObj : Json → Bool
  | .obj _ => true
  | _ => false

/-- The top-level keys of a value (empty for non-objects). -/
def topKeys : Json → List String
  | .obj o => objKeys o
  | _ => []

/-- Top-level field lookup (none for non-objects). -/
def topLookup (k : String) : Json → Option Json
  | .obj o => objLookup k o
  | _ => none

/-- Every key of `o2` is a key of `o1`. -/
def objKeysSubset (o2 o1 : JsonObj) : Bool :=
  (objKeys o2).all fun k => decide (k ∈ objKeys o1)

mutual

/-- Field-identity of two values ignoring object key order: objects are
compared as finite maps (same keys, equivalent values per key), arrays
pointwise in order, scalars by equality. -/
def equivJson : Json → Json → Bool
  | .null, .null => true
  | .bool b1, .bool b2 => b1 == b2
  | .num n1, .num n2 => n1 == n2
  | .str s1, .str s2 => s1 == s2
  | .arr l1, .arr l2 => equivJsonList l1 l2
  | .obj o1, .obj o2 => equivObjLe o1 o2 && objKeysSubset o2 o1
  | _, _ => false

def equivJsonList : JsonList → JsonList → Bool
  | .nil, .nil => true
  | .cons v1 t1, .cons v2 t2 => equivJson v1 v2 && equivJsonList t1 t2
  | _, _ => false

/-- Each field of `o1` is present in `o2` with an equivalent value. -/
def equivObjLe : JsonObj → JsonObj → Bool
  | .nil, _ => true
  | .cons k v tl, o2 =>
    (match objLookup k o2 with
     | some w => equivJson v w
     | none => false) && equivObjLe tl o2

end

theorem applySigMut_canonical {T U : Type} (ops : SignedOps T) (f : Sigs → Sigs)
    (fs : FrozenStruct T U) : (FrozenStruct.applySigMut ops f fs).canonical = fs.canonical := rfl

theorem applySigMut_unsigned {T U : Type} (ops : SignedOps T) (f : Sigs → Sigs)
    (fs : FrozenStruct T U) : (FrozenStruct.applySigMut ops f fs).unsigned = fs.unsigned := rfl

theorem applySigMut_serialized {T U : Type} (ops : SignedOps T) (f : Sigs → Sigs)
    (fs : FrozenStruct T U) : (FrozenStruct.applySigMut ops f fs).serialized = none := rfl

theorem applySigMuts_canonical {T U : Type} (ops : SignedOps T)
    (muts : List (Sigs → Sigs)) : ∀ (fs : FrozenStruct T U),
    (applySigMuts ops fs muts).canonical = fs.canonical ∧
    (applySigMuts ops fs muts).unsigned = fs.unsigned ∧
    (muts ≠ [] → (applySigMuts ops fs muts).serialized = none) := by
  induction muts with
  | nil => intro fs; refine ⟨rfl, rfl, ?_⟩; intro h; exact absurd rfl h
  | cons f rest ih =>
    intro fs
    have h := ih (FrozenStruct.applySigMut ops f fs)
    refine ⟨h.1, h.2.1, fun _ => ?_⟩
    rcases rest.eq_nil_or_concat with hr | ⟨l, g, hr⟩
    · subst hr
      simpa [applySigMuts] using applySigMut_serialized ops f fs
    · subst hr
      simp only [applySigMuts, List.concat_eq_append, List.foldl_cons, List.foldl_append,
        List.foldl_nil]
      exact applySigMut_serialized ops g _

/-- C1: for every Frozen object and every sequence of signature mutations
performed through `signatures_mut` (adding, removing or clearing
signatures, including via `sign`), the canonical bytes — and the unsigned
side value — are unchanged, and only the cached serialized bytes are set
to absent; `sign` on a Frozen object is exactly one such mutation, adding
the detached signature of the stored canonical bytes. -/
theorem frozen_canonical_stable {T U : Type} (ops : SignedOps T)
    (fs : FrozenStruct T U) (muts : List (Sigs → Sigs)) :
    (applySigMuts ops fs muts).canonical = fs.canonical ∧
    (applySigMuts ops fs muts).unsigned = fs.unsigned ∧
    (muts ≠ [] → (applySigMuts ops fs muts).serialized = none) ∧
    (∀ key : SigningKeyPair,
      NamedSecretKey.sign key (FrozenStruct.sigOps ops) FrozenStruct.as_canonical fs =
        FrozenStruct.applySigMut ops
          (add_signature key.entity key.key_id
            (sign.sign_detached fs.canonical key.secret)) fs) := by
  refine ⟨(applySigMuts_canonical ops muts fs).1, (applySigMuts_canonical ops muts fs).2.1,
    (applySigMuts_canonical ops muts fs).2.2, fun key => rfl⟩

theorem frozen_canonical_stable_witness :
    (applySigMuts simpleOps
      (⟨⟨[]⟩, some ['a'], ['x'], none⟩ : FrozenStruct SimpleSigned Json)
      [clearSigs]).canonical = ['x'] ∧
    (applySigMuts simpleOps
      (⟨⟨[]⟩, some ['a'], ['x'], none⟩ : FrozenStruct SimpleSigned Json)
      [clearSigs]).serialized = none := by
  have h := frozen_canonical_stable simpleOps
    (⟨⟨[]⟩, some ['a'], ['x'], none⟩ : FrozenStruct SimpleSigned Json) [clearSigs]
  exact ⟨h.1, h.2.2.1 (by simp)⟩

/-- C3: `verify` returns `Unsigned` exactly when the container has no
entry at `(entity, key_id)`; with an entry present it returns `Valid`
iff detached verification of that signature against the object's
canonical bytes succeeds and `Invalid` otherwise; and `Unsigned` is a
value distinct from both `Valid` and `Invalid`. -/
theorem verify_result_spec {T : Type} (key : VerifyKey) (sops : SignedOps T)
    (canon : T → List Char) (obj : T) :
    (NamedPublicKey.verify key sops canon obj = .Unsigned ↔
      get_signature key.entity key.key_id (sops.signatures obj) = none) ∧
    (∀ sig, get_signature key.entity key.key_id (sops.signatures obj) = some sig →
      NamedPublicKey.verify key sops canon obj =
        (if sign.verify_detached sig (canon obj) key.public
         then .Valid else .Invalid)) ∧
    VerifyResult.Unsigned ≠ VerifyResult.Valid ∧
    VerifyResult.Unsigned ≠ VerifyResult.Invalid := by
  refine ⟨?_, ?_, by decide, by decide⟩
  · unfold NamedPublicKey.verify
    cases h : get_signature key.entity key.key_id (sops.signatures obj) with
    | none => simp
    | some sig =>
      simp only [h]
      constructor
      · intro hv
        by_cases hd : sign.verify_detached sig (canon obj) key.public <;>
          simp [hd] at hv
      · intro hv; cases hv
  · intro sig hsig
    unfold NamedPublicKey.verify
    rw [hsig]

theorem verify_result_spec_witness :
    NamedPublicKey.verify
      (⟨⟨List.replicate 32 0⟩, "k", "e"⟩ : VerifyKey) simpleOps (fun _ => [])
      (⟨[("e", [("k", ⟨List.replicate 64 0⟩)])]⟩ : SimpleSigned) =
      (if sign.verify_detached ⟨List.replicate 64 0⟩ [] ⟨List.replicate 32 0⟩
       then .Valid else .Invalid) := by
  exact (verify_result_spec _ simpleOps _ _).2.1 _ (by decide)

/-- C7: `wrap` first clears the value's Signature Container, then
computes the canonical bytes from the cleared value, then extracts the
unsigned side value the type exposes from it, and the result has no
cached full serialization. -/
theorem wrap_spec {T : Type} (ops : CanonOps T) (w : T) :
    (FrozenStruct.wrap ops w).parsed
        = ops.set_signatures w (clearSigs (ops.signatures w)) ∧
    (FrozenStruct.wrap ops w).canonical
        = ops.as_canonical (ops.set_signatures w (clearSigs (ops.signatures w))) ∧
    (FrozenStruct.wrap ops w).unsigned
        = ops.get_unsigned (ops.set_signatures w (clearSigs (ops.signatures w))) ∧
    (FrozenStruct.wrap ops w).serialized = none :=
  ⟨rfl, rfl, rfl, rfl⟩

/-- C8: wrong-length key and signature material is rejected at the
decode boundary: a seed of length ≠ 32 yields no keypair, public-key
bytes of length ≠ 32 (or undecodable base64) yield no verify key, and a
`Base64Signature` whose decoded bytes are not exactly 64 bytes (or do
not decode) is a decode error, never a signature. -/
theorem decode_boundary_length_checks :
    (∀ (seed : List Nat) (e k : String), seed.length ≠ 32 →
      SigningKeyPair.from_seed seed e k = none) ∧
    (∀ (slice : List Nat) (e k : String), slice.length ≠ 32 →
      VerifyKey.from_slice slice e k = none) ∧
    (∀ (b64 : List Char) (e k : String), fromBase64 b64 = none →
      VerifyKey.from_b64 b64 e k = none) ∧
    (∀ (b64 : List Char) (bytes : List Nat) (e k : String),
      fromBase64 b64 = some bytes → bytes.length ≠ 32 →
      VerifyKey.from_b64 b64 e k = none) ∧
    (∀ (s : String), fromBase64 s.data = none →
      Base64Signature.deserialize s = .error "Invalid signature") ∧
    (∀ (s : String) (bytes : List Nat), fromBase64 s.data = some bytes →
      bytes.length ≠ 64 →
      Base64Signature.deserialize s = .error "Invalid signature") := by
  refine ⟨?_, ?_, ?_, ?_, ?_, ?_⟩
  · intro seed e k h
    simp [SigningKeyPair.from_seed, sign.Seed.from_slice, sign.SEEDBYTES, h]
  · intro slice e k h
    simp [VerifyKey.from_slice, sign.PublicKey.from_slice, sign.PUBLICKEYBYTES, h]
  · intro b64 e k h
    simp [VerifyKey.from_b64, h]
  · intro b64 bytes e k h hlen
    simp [VerifyKey.from_b64, h, sign.PublicKey.from_slice, sign.PUBLICKEYBYTES, hlen]
  · intro s h
    simp [Base64Signature.deserialize, h]
  · intro s bytes h hlen
    simp [Base64Signature.deserialize, h, sign.Signature.from_slice, sign.SIGNATUREBYTES, hlen]

theorem decode_boundary_length_checks_witness :
    SigningKeyPair.from_seed [0, 1, 2] "e" "k" = none ∧
    VerifyKey.from_slice [5] "e" "k" = none ∧
    VerifyKey.from_b64 ['!'] "e" "k" = none ∧
    VerifyKey.from_b64 ['A', 'A'] "e" "k" = none ∧
    Base64Signature.deserialize "!" = .error "Invalid signature" ∧
    Base64Signature.deserialize "AA" = .error "Invalid signature" := by
  refine ⟨decode_boundary_length_checks.1 _ _ _ (by decide),
    decode_boundary_length_checks.2.1 _ _ _ (by decide),
    decode_boundary_length_checks.2.2.1 _ _ _ (by decide),
    decode_boundary_length_checks.2.2.2.1 _ [0] _ _ (by decide) (by decide),
    decode_boundary_length_checks.2.2.2.2.1 _ (by decide),
    decode_boundary_length_checks.2.2.2.2.2 _ [0] (by decide) (by decide)⟩

/-! ## Association-list lemmas (the `BTreeMap` model) -/

section AssocLemmas

variable {α : Type}

theorem alSorted_cons_iff (p : String × α) (tl : List (String × α)) :
    alSorted (p :: tl) = true ↔ alSorted tl = true ∧ ∀ q ∈ tl, p.1 < q.1 := by
  induction tl generalizing p with
  | nil => simp [alSorted]
  | cons q tl ih =>
    simp only [alSorted, Bool.and_eq_true, decide_eq_true_eq]
    constructor
    · rintro ⟨hpq, hq⟩
      have hqtl := (ih q).mp hq
      refine ⟨hq, ?_⟩
      intro r hr
      rcases List.mem_cons.mp hr with rfl | hr
      · exact hpq
      · exact lt_trans hpq (hqtl.2 r hr)
    · rintro ⟨hq, hall⟩
      exact ⟨hall q (List.mem_cons_self q tl), hq⟩

theorem alSorted_iff_pairwise (l : List (String × α)) :
    alSorted l = true ↔ l.Pairwise (fun a b => a.1 < b.1) := by
  induction l with
  | nil => simp [alSorted]
  | cons p tl ih =>
    rw [alSorted_cons_iff, List.pairwise_cons, ih, and_comm]

theorem alLookup_eq_none (k : String) (l : List (String × α))
    (h : ∀ q ∈ l, k ≠ q.1) : alLookup k l = none := by
  induction l with
  | nil => rfl
  | cons p tl ih =>
    simp only [alLookup, if_neg (h p (List.mem_cons_self p tl))]
    exact ih fun q hq => h q (List.mem_cons_of_mem p hq)

theorem mem_of_alLookup_eq_some {k : String} {v : α} {l : List (String × α)}
    (h : alLookup k l = some v) : (k, v) ∈ l := by
  induction l with
  | nil => cases h
  | cons p tl ih =>
    obtain ⟨p1, p2⟩ := p
    by_cases hk : k = p1
    · subst hk
      simp only [alLookup, if_pos rfl] at h
      cases h
      exact List.mem_cons_self _ _
    · simp only [alLookup, if_neg hk] at h
      exact List.mem_cons_of_mem _ (ih h)

theorem alLookup_eq_some_of_mem {k : String} {v : α} {l : List (String × α)}
    (hs : alSorted l = true) (h : (k, v) ∈ l) : alLookup k l = some v := by
  induction l with
  | nil => cases h
  | cons p tl ih =>
    have hp := (alSorted_cons_iff p tl).mp hs
    rcases List.mem_cons.mp h with rfl | h
    · simp [alLookup]
    · have hne : k ≠ p.1 := by
        have := hp.2 (k, v) h
        exact fun he => absurd (he ▸ this) (lt_irrefl _)
      simp only [alLookup, if_neg hne]
      exact ih hp.1 h

theorem alLookup_alInsert_self (k : String) (v : α) (l : List (String × α)) :
    alLookup k (alInsert k v l) = some v := by
  induction l with
  | nil => simp [alInsert, alLookup]
  | cons p tl ih =>
    by_cases h1 : k < p.1
    · simp [alInsert, alLookup, h1]
    · by_cases h2 : k = p.1
      · simp [alInsert, alLookup, h1, h2]
      · simp [alInsert, alLookup, h1, h2, ih]

theorem alLookup_alInsert_ne (k k' : String) (v : α) (l : List (String × α))
    (h : k' ≠ k) : alLookup k' (alInsert k v l) = alLookup k' l := by
  induction l with
  | nil => simp [alInsert, alLookup, h]
  | cons p tl ih =>
    by_cases h1 : k < p.1
    · simp [alInsert, alLookup, h1, h]
    · by_cases h2 : k = p.1
      · subst h2
        simp [alInsert, alLookup, h1, h]
      · by_cases h3 : k' = p.1
        · simp [alInsert, alLookup, h1, h2, h3]
        · simp [alInsert, alLookup, h1, h2, h3, ih]

theorem mem_alInsert {q : String × α} {k : String} {v : α} {l : List (String × α)}
    (h : q ∈ alInsert k v l) : q = (k, v) ∨ q ∈ l := by
  induction l with
  | nil => simpa [alInsert] using h
  | cons p tl ih =>
    by_cases h1 : k < p.1
    · simp only [alInsert, if_pos h1] at h
      rcases List.mem_cons.mp h with rfl | h
      · exact Or.inl rfl
      · exact Or.inr h
    · by_cases h2 : k = p.1
      · simp only [alInsert, if_neg h1, if_pos h2] at h
        rcases List.mem_cons.mp h with rfl | h
        · exact Or.inl rfl
        · exact Or.inr (List.mem_cons_of_mem p h)
      · simp only [alInsert, if_neg h1, if_neg h2] at h
        rcases List.mem_cons.mp h with rfl | h
        · exact Or.inr (List.mem_cons_self _ _)
        · rcases ih h with h | h
          · exact Or.inl h
          · exact Or.inr (List.mem_cons_of_mem p h)

theorem alSorted_alInsert (k : String) (v : α) (l : List (String × α))
    (hs : alSorted l = true) : alSorted (alInsert k v l) = true := by
  induction l with
  | nil => simp [alInsert, alSorted]
  | cons p tl ih =>
    have hp := (alSorted_cons_iff p tl).mp hs
    by_cases h1 : k < p.1
    · simp only [alInsert, if_pos h1]
      rw [alSorted_cons_iff]
      refine ⟨hs, ?_⟩
      intro q hq
      rcases List.mem_cons.mp hq with rfl | hq
      · exact h1
      · exact lt_trans h1 (hp.2 q hq)
    · by_cases h2 : k = p.1
      · simp only [alInsert, if_neg h1, if_pos h2]
        rw [alSorted_cons_iff]
        exact ⟨hp.1, by simpa [h2] using hp.2⟩
      · have hpk : p.1 < k := by
          rcases lt_trichotomy k p.1 with h | h | h
          · exact absurd h h1
          · exact absurd h h2
          · exact h
        simp only [alInsert, if_neg h1, if_neg h2]
        rw [alSorted_cons_iff]
        refine ⟨ih hp.1, ?_⟩
        intro q hq
        rcases mem_alInsert hq with rfl | hq
        · exact hpk
        · exact hp.2 q hq

theorem mem_alUpdate {q : String × α} {k : String} {f : α → α} {d : α}
    {l : List (String × α)} (h : q ∈ alUpdate k f d l) : q.1 = k ∨ q ∈ l := by
  induction l with
  | nil => simp only [alUpdate] at h; rcases List.mem_singleton.mp h with rfl; exact Or.inl rfl
  | cons p tl ih =>
    by_cases h1 : k < p.1
    · simp only [alUpdate, if_pos h1] at h
      rcases List.mem_cons.mp h with rfl | h
      · exact Or.inl rfl
      · exact Or.inr h
    · by_cases h2 : k = p.1
      · simp only [alUpdate, if_neg h1, if_pos h2] at h
        rcases List.mem_cons.mp h with rfl | h
        · exact Or.inl rfl
        · exact Or.inr (List.mem_cons_of_mem p h)
      · simp only [alUpdate, if_neg h1, if_neg h2] at h
        rcases List.mem_cons.mp h with rfl | h
        · exact Or.inr (List.mem_cons_self _ _)
        · rcases ih h with h | h
          · exact Or.inl h
          · exact Or.inr (List.mem_cons_of_mem p h)

theorem alSorted_alUpdate (k : String) (f : α → α) (d : α) (l : List (String × α))
    (hs : alSorted l = true) : alSorted (alUpdate k f d l) = true := by
  induction l with
  | nil => simp [alUpdate, alSorted]
  | cons p tl ih =>
    have hp := (alSorted_cons_iff p tl).mp hs
    by_cases h1 : k < p.1
    · simp only [alUpdate, if_pos h1]
      rw [alSorted_cons_iff]
      refine ⟨hs, ?_⟩
      intro q hq
      rcases List.mem_cons.mp hq with rfl | hq
      · exact h1
      · exact lt_trans h1 (hp.2 q hq)
    · by_cases h2 : k = p.1
      · simp only [alUpdate, if_neg h1, if_pos h2]
        rw [alSorted_cons_iff]
        exact ⟨hp.1, by simpa [h2] using hp.2⟩
      · have hpk : p.1 < k := by
          rcases lt_trichotomy k p.1 with h | h | h
          · exact absurd h h1
          · exact absurd h h2
          · exact h
        simp only [alUpdate, if_neg h1, if_neg h2]
        rw [alSorted_cons_iff]
        refine ⟨ih hp.1, ?_⟩
        intro q hq
        rcases mem_alUpdate hq with hq1 | hq
        · exact hq1 ▸ hpk
        · exact hp.2 q hq

theorem alLookup_alUpdate_self (k : String) (f : α → α) (d : α)
    (l : List (String × α)) (hs : alSorted l = true) :
    alLookup k (alUpdate k f d l) = some (f ((alLookup k l).getD d)) := by
  induction l with
  | nil => simp [alUpdate, alLookup]
  | cons p tl ih =>
    have hp := (alSorted_cons_iff p tl).mp hs
    by_cases h1 : k < p.1
    · have hnone : alLookup k (p :: tl) = none := by
        refine alLookup_eq_none k (p :: tl) ?_
        intro q hq
        rcases List.mem_cons.mp hq with rfl | hq
        · exact ne_of_lt h1
        · exact ne_of_lt (lt_trans h1 (hp.2 q hq))
      simp only [alUpdate, if_pos h1]
      rw [hnone]
      simp [alLookup]
    · by_cases h2 : k = p.1
      · simp [alUpdate, alLookup, h1, h2]
      · simp [alUpdate, alLookup, h1, h2, ih hp.1]

theorem alLookup_alUpdate_ne (k k' : String) (f : α → α) (d : α)
    (l : List (String × α)) (h : k' ≠ k) :
    alLookup k' (alUpdate k f d l) = alLookup k' l := by
  induction l with
  | nil => simp [alUpdate, alLookup, h]
  | cons p tl ih =>
    by_cases h1 : k < p.1
    · simp [alUpdate, alLookup, h1, h]
    · by_cases h2 : k = p.1
      · subst h2
        simp [alUpdate, alLookup, h1, h]
      · by_cases h3 : k' = p.1
        · simp [alUpdate, alLookup, h1, h2, h3]
        · simp [alUpdate, alLookup, h1, h2, h3, ih]

end AssocLemmas

/-! ## Container claims -/

/-- C10: after `add_signature entity key_id sig`, `get_signature` at the
same slot returns `sig`, and every other slot — including other key-ids
of the same entity — reads exactly as before. -/
theorem add_signature_frame (entity key_id : String) (sig : sign.Signature)
    (m : Sigs) (h : wfSigs m = true) :
    get_signature entity key_id (add_signature entity key_id sig m) = some sig ∧
    ∀ entity' key_id', (entity', key_id') ≠ (entity, key_id) →
      get_signature entity' key_id' (add_signature entity key_id sig m) =
        get_signature entity' key_id' m := by
  have hsorted : alSorted m = true := by
    simp only [wfSigs, Bool.and_eq_true] at h
    exact h.1
  constructor
  · unfold get_signature add_signature
    rw [alLookup_alUpdate_self entity (alInsert key_id sig) [] m hsorted]
    simp only [Option.some_bind]
    exact alLookup_alInsert_self key_id sig _
  · intro entity' key_id' hne
    unfold get_signature add_signature
    by_cases he : entity' = entity
    · subst he
      have hk : key_id' ≠ key_id := by
        intro hk
        exact hne (by rw [hk])
      rw [alLookup_alUpdate_self entity' (alInsert key_id sig) [] m hsorted]
      simp only [Option.some_bind]
      rw [alLookup_alInsert_ne key_id key_id' sig _ hk]
      cases hl : alLookup entity' m with
      | none => simp [hl, alLookup]
      | some inner => simp [hl]
    · rw [alLookup_alUpdate_ne entity entity' (alInsert key_id sig) [] m he]

theorem add_signature_frame_witness :
    wfSigs [("e", [("a", (⟨List.replicate 64 1⟩ : sign.Signature))])] = true ∧
    get_signature "e" "b"
      (add_signature "e" "b" ⟨List.replicate 64 2⟩
        [("e", [("a", ⟨List.replicate 64 1⟩)])]) = some ⟨List.replicate 64 2⟩ ∧
    get_signature "e" "a"
      (add_signature "e" "b" ⟨List.replicate 64 2⟩
        [("e", [("a", ⟨List.replicate 64 1⟩)])]) =
      get_signature "e" "a" [("e", [("a", ⟨List.replicate 64 1⟩)])] := by
  have h := add_signature_frame "e" "b" ⟨List.replicate 64 2⟩
    [("e", [("a", ⟨List.replicate 64 1⟩)])] (by decide)
  exact ⟨by decide, h.1, h.2 "e" "a" (by decide)⟩

theorem wfSigs_iff (m : Sigs) :
    wfSigs m = true ↔ alSorted m = true ∧ ∀ p ∈ m, alSorted p.2 = true := by
  simp [wfSigs, Bool.and_eq_true, List.all_eq_true]

theorem filterMap_entity_nil {α : Type} (e : String) (l : List (String × α))
    (h : ∀ q ∈ l, q.1 ≠ e) :
    (l.filterMap fun p => if p.1 = e then some p.2 else none) = [] := by
  induction l with
  | nil => rfl
  | cons p tl ih =>
    rw [List.filterMap_cons]
    simp only [if_neg (h p (List.mem_cons_self p tl))]
    exact ih fun q hq => h q (List.mem_cons_of_mem p hq)

theorem filterMap_entity_eq {α : Type} (e : String) (m : List (String × α))
    (hs : alSorted m = true) :
    (m.filterMap fun p => if p.1 = e then some p.2 else none) =
      (alLookup e m).elim [] (fun i => [i]) := by
  induction m with
  | nil => rfl
  | cons p tl ih =>
    have hp := (alSorted_cons_iff p tl).mp hs
    rw [List.filterMap_cons]
    by_cases he : p.1 = e
    · simp only [if_pos he]
      have htl : (tl.filterMap fun q => if q.1 = e then some q.2 else none) = [] := by
        refine filterMap_entity_nil e tl ?_
        intro q hq
        have := hp.2 q hq
        rw [← he]
        exact fun hc => absurd (hc ▸ this) (lt_irrefl _)
      rw [htl]
      simp [alLookup, he.symm]
    · simp only [if_neg he]
      rw [ih hp.1]
      have : e ≠ p.1 := fun hc => he hc.symm
      simp [alLookup, this]


theorem pairwise_get_signatures (m : Sigs) (hsort : alSorted m = true)
    (hinner : ∀ p ∈ m, alSorted p.2 = true) :
    List.Pairwise (fun a b : String × String × sign.Signature =>
      a.1 < b.1 ∨ (a.1 = b.1 ∧ a.2.1 < b.2.1)) (get_signatures m) := by
  induction m with
  | nil => exact List.Pairwise.nil
  | cons p tl ih =>
    have hp := (alSorted_cons_iff p tl).mp hsort
    unfold get_signatures
    rw [List.flatMap_cons, List.pairwise_append]
    refine ⟨?_, ?_, ?_⟩
    · rw [List.pairwise_map]
      have := (alSorted_iff_pairwise p.2).mp (hinner p (List.mem_cons_self p tl))
      exact this.imp fun hlt => Or.inr ⟨rfl, hlt⟩
    · exact ih hp.1 fun q hq => hinner q (List.mem_cons_of_mem p hq)
    · intro a ha b hb
      rw [List.mem_map] at ha
      obtain ⟨qa, _, haeq⟩ := ha
      rw [List.mem_flatMap] at hb
      obtain ⟨r, hr, hbr⟩ := hb
      rw [List.mem_map] at hbr
      obtain ⟨qb, _, hbeq⟩ := hbr
      left
      have ha1 : a.1 = p.1 := by rw [← haeq]
      have hb1 : b.1 = r.1 := by rw [← hbeq]
      rw [ha1, hb1]
      exact hp.2 r hr

/-- C9: `get_signatures_for_entity` enumerates exactly the (key-id,
signature) pairs stored under that entity, in key-id ascending order,
and is empty for an unknown entity; `get_signatures` enumerates all
(entity, key-id, signature) triples, ascending by entity then key-id;
`get_entities` enumerates each stored entity exactly once, ascending. -/
theorem signatures_enumeration (m : Sigs) (h : wfSigs m = true) :
    (∀ e, get_signatures_for_entity e m = (alLookup e m).getD []) ∧
    (∀ e, alLookup e m = none → get_signatures_for_entity e m = []) ∧
    (∀ e, alSorted (get_signatures_for_entity e m) = true) ∧
    (∀ e k s, (k, s) ∈ get_signatures_for_entity e m ↔ get_signature e k m = some s) ∧
    (∀ e k s, (e, k, s) ∈ get_signatures m ↔ get_signature e k m = some s) ∧
    List.Pairwise (fun a b : String × String × sign.Signature =>
      a.1 < b.1 ∨ (a.1 = b.1 ∧ a.2.1 < b.2.1)) (get_signatures m) ∧
    get_entities m = m.map Prod.fst ∧
    List.Pairwise (· < ·) (get_entities m) ∧
    (get_entities m).Nodup := by
  obtain ⟨hsort, hinner⟩ := (wfSigs_iff m).mp h
  have hgsfe : ∀ e, get_signatures_for_entity e m = (alLookup e m).getD [] := by
    intro e
    unfold get_signatures_for_entity
    rw [filterMap_entity_eq e m hsort]
    cases alLookup e m with
    | none => rfl
    | some i => simp
  have hinner_lookup : ∀ e i, alLookup e m = some i → alSorted i = true := by
    intro e i hl
    exact hinner (e, i) (mem_of_alLookup_eq_some hl)
  have hmem : ∀ e k s, (e, k, s) ∈ get_signatures m ↔ get_signature e k m = some s := by
    intro e k s
    unfold get_signatures get_signature
    rw [List.mem_flatMap]
    constructor
    · rintro ⟨p, hpm, hmem⟩
      rw [List.mem_map] at hmem
      obtain ⟨q, hq, heq⟩ := hmem
      obtain ⟨he, hk, hs⟩ : p.1 = e ∧ q.1 = k ∧ q.2 = s := by
        have h1 := congrArg Prod.fst heq
        have h2 := congrArg (fun x => x.2.1) heq
        have h3 := congrArg (fun x => x.2.2) heq
        exact ⟨h1, h2, h3⟩
      have hpl : alLookup e m = some p.2 := by
        refine alLookup_eq_some_of_mem hsort ?_
        rw [← he]
        exact hpm
      rw [hpl]
      simp only [Option.some_bind]
      refine alLookup_eq_some_of_mem (hinner p hpm) ?_
      rw [← hk, ← hs]
      exact hq
    · intro hget
      cases hl : alLookup e m with
      | none => rw [hl] at hget; cases hget
      | some i =>
        rw [hl] at hget
        simp only [Option.some_bind] at hget
        refine ⟨(e, i), mem_of_alLookup_eq_some hl, ?_⟩
        rw [List.mem_map]
        exact ⟨(k, s), mem_of_alLookup_eq_some hget, rfl⟩
  refine ⟨hgsfe, ?_, ?_, ?_, hmem, pairwise_get_signatures m hsort hinner, rfl, ?_, ?_⟩
  · intro e he
    rw [hgsfe e, he]
    rfl
  · intro e
    rw [hgsfe e]
    cases hl : alLookup e m with
    | none => rfl
    | some i => exact hinner_lookup e i hl
  · intro e k s
    rw [hgsfe e]
    cases hl : alLookup e m with
    | none =>
      simp only [Option.getD_none]
      unfold get_signature
      rw [hl]
      simp
    | some i =>
      simp only [Option.getD_some]
      unfold get_signature
      rw [hl]
      simp only [Option.some_bind]
      constructor
      · intro hm
        exact alLookup_eq_some_of_mem (hinner_lookup e i hl) hm
      · intro hg
        exact mem_of_alLookup_eq_some hg
  · unfold get_entities
    rw [List.pairwise_map]
    exact (alSorted_iff_pairwise m).mp hsort
  · unfold get_entities
    have hp : List.Pairwise (· ≠ ·) (m.map Prod.fst) := by
      rw [List.pairwise_map]
      exact ((alSorted_iff_pairwise m).mp hsort).imp fun hlt => ne_of_lt hlt
    exact hp

theorem signatures_enumeration_witness :
    get_signatures_for_entity "a"
        [("a", [("x", (⟨List.replicate 64 3⟩ : sign.Signature))])] =
      [("x", ⟨List.replicate 64 3⟩)] ∧
    get_signatures_for_entity "zzz"
        [("a", [("x", (⟨List.replicate 64 3⟩ : sign.Signature))])] = [] ∧
    get_entities [("a", [("x", (⟨List.replicate 64 3⟩ : sign.Signature))])] = ["a"] := by
  have h := signatures_enumeration
    [("a", [("x", (⟨List.replicate 64 3⟩ : sign.Signature))])] (by decide)
  refine ⟨?_, h.2.1 "zzz" (by decide), ?_⟩
  · rw [h.1 "a"]
    rfl
  · rw [h.2.2.2.2.2.2.1]
    rfl

/-- C4: for a keypair freshly derived from a seed and bound to
`(entity, key_id)`, `sign` adds the detached signature of the object's
canonical bytes at `(entity, key_id)` in its Signature Container, and a
subsequent `verify` with the verification key derived from the keypair
yields `Valid`. -/
theorem sign_verify_roundtrip {U : Type} (seed : List Nat) (e kid : String)
    (k : SigningKeyPair) (fs : FrozenStruct SimpleSigned U)
    (hk : SigningKeyPair.from_seed seed e kid = some k)
    (hwf : wfSigs fs.parsed.signatures = true) :
    get_signature e kid
      ((NamedSecretKey.sign k (FrozenStruct.sigOps simpleOps)
          FrozenStruct.as_canonical fs).parsed.signatures) =
      some (sign.sign_detached fs.canonical k.secret) ∧
    NamedPublicKey.verify (VerifyKey.from_signing_key k) (FrozenStruct.sigOps simpleOps)
      FrozenStruct.as_canonical
      (NamedSecretKey.sign k (FrozenStruct.sigOps simpleOps)
        FrozenStruct.as_canonical fs) = .Valid := by
  have hsorted : alSorted fs.parsed.signatures = true := ((wfSigs_iff _).mp hwf).1
  unfold SigningKeyPair.from_seed sign.Seed.from_slice at hk
  by_cases hlen : seed.length = sign.SEEDBYTES
  · rw [if_pos hlen] at hk
    simp only [sign.keypair_from_seed, Option.map_some', Option.some.injEq] at hk
    subst hk
    have hget : get_signature e kid
        (add_signature e kid (sign.sign_detached fs.canonical ⟨seed⟩)
          fs.parsed.signatures) =
        some (sign.sign_detached fs.canonical ⟨seed⟩) := by
      unfold get_signature add_signature
      rw [alLookup_alUpdate_self e _ [] _ hsorted]
      simp only [Option.some_bind]
      exact alLookup_alInsert_self kid _ _
    constructor
    · exact hget
    · unfold NamedPublicKey.verify
      simp only [VerifyKey.from_signing_key]
      have hsig : (FrozenStruct.sigOps (U := U) simpleOps).signatures
          (NamedSecretKey.sign
            { public := ⟨seed⟩, secret := ⟨seed⟩, key_id := kid, entity := e }
            (FrozenStruct.sigOps simpleOps) FrozenStruct.as_canonical fs) =
          add_signature e kid (sign.sign_detached fs.canonical ⟨seed⟩)
            fs.parsed.signatures := rfl
      rw [hsig, hget]
      have hcan : FrozenStruct.as_canonical
          (NamedSecretKey.sign
            { public := ⟨seed⟩, secret := ⟨seed⟩, key_id := kid, entity := e }
            (FrozenStruct.sigOps (U := U) simpleOps) FrozenStruct.as_canonical fs) =
          fs.canonical := rfl
      rw [hcan]
      have hver : sign.verify_detached (sign.sign_detached fs.canonical ⟨seed⟩)
          fs.canonical ⟨seed⟩ = true := by
        unfold sign.verify_detached sign.sign_detached
        simp
      simp [hver]
  · rw [if_neg hlen] at hk
    cases hk

theorem sign_verify_roundtrip_witness :
    NamedPublicKey.verify
      (VerifyKey.from_signing_key
        ⟨⟨List.replicate 32 7⟩, ⟨List.replicate 32 7⟩, "ed25519:1", "domain"⟩)
      (FrozenStruct.sigOps simpleOps) FrozenStruct.as_canonical
      (NamedSecretKey.sign
        ⟨⟨List.replicate 32 7⟩, ⟨List.replicate 32 7⟩, "ed25519:1", "domain"⟩
        (FrozenStruct.sigOps simpleOps) FrozenStruct.as_canonical
        (⟨⟨[]⟩, none, ['{', '}'], none⟩ : FrozenStruct SimpleSigned Json)) = .Valid :=
  (sign_verify_roundtrip (List.replicate 32 7) "domain" "ed25519:1"
    ⟨⟨List.replicate 32 7⟩, ⟨List.replicate 32 7⟩, "ed25519:1", "domain"⟩
    (⟨⟨[]⟩, none, ['{', '}'], none⟩ : FrozenStruct SimpleSigned Json)
    (by decide) (by decide)).2

/-- C5: `from_slice` removes a top-level `unsigned` field (when the
parsed value is an object that has one) and decodes it separately as the
side value, decodes the remaining structure into the live value,
computes the canonical bytes by canonicalizing the original untouched
input bytes, caches the original bytes as the full-serialization cache;
and if any parse or decode step fails it returns that error (no partial
Frozen object exists in the `.error` case). -/
theorem from_slice_spec {T U : Type} (decT : Json → Except String T)
    (decU : Json → Except String U) (bytes : List Char) :
    (∀ fs, FrozenStruct.from_slice decT decU bytes = .ok fs →
      ∃ v, parseJson bytes = .ok v ∧
        fs.serialized = some bytes ∧
        canonicalize bytes = .ok fs.canonical ∧
        decT (removeUnsignedTop v).2 = .ok fs.parsed ∧
        ((removeUnsignedTop v).1 = none → fs.unsigned = none) ∧
        (∀ uv, (removeUnsignedTop v).1 = some uv →
          ∃ u, decU uv = .ok u ∧ fs.unsigned = some u)) ∧
    (∀ err, parseJson bytes = .error err →
      FrozenStruct.from_slice decT decU bytes = .error err) ∧
    (∀ v uv msg, parseJson bytes = .ok v → (removeUnsignedTop v).1 = some uv →
      decU uv = .error msg →
      FrozenStruct.from_slice decT decU bytes = .error msg) ∧
    (∀ v msg, parseJson bytes = .ok v →
      ((removeUnsignedTop v).1 = none ∨
        ∃ uv u, (removeUnsignedTop v).1 = some uv ∧ decU uv = .ok u) →
      decT (removeUnsignedTop v).2 = .error msg →
      FrozenStruct.from_slice decT decU bytes = .error msg) := by
  refine ⟨?_, ?_, ?_, ?_⟩
  · intro fs hok
    rw [FrozenStruct.from_slice] at hok
    cases hparse : parseJson bytes with
    | error err =>
      rw [hparse] at hok
      simp only [FrozenStruct.from_sliceAux] at hok
      exact Except.noConfusion hok
    | ok v =>
      rw [hparse] at hok
      simp only [FrozenStruct.from_sliceAux, FrozenStruct.from_sliceParsed] at hok
      refine ⟨v, rfl, ?_⟩
      cases hu : (removeUnsignedTop v).1 with
      | none =>
        rw [hu] at hok
        simp only [FrozenStruct.decodeUnsignedOpt] at hok
        cases hdT : decT (removeUnsignedTop v).2 with
        | error m =>
          rw [hdT] at hok
          exact Except.noConfusion hok
        | ok parsed =>
          rw [hdT] at hok
          cases hcan : canonicalize bytes with
          | error m =>
            rw [hcan] at hok
            exact Except.noConfusion hok
          | ok can =>
            rw [hcan] at hok
            simp only [Except.ok.injEq] at hok
            subst hok
            exact ⟨rfl, rfl, rfl, fun _ => rfl, fun uv huv => Option.noConfusion huv⟩
      | some uv =>
        rw [hu] at hok
        simp only [FrozenStruct.decodeUnsignedOpt] at hok
        cases hdU : decU uv with
        | error m =>
          rw [hdU] at hok
          exact Except.noConfusion hok
        | ok u =>
          rw [hdU] at hok
          simp only at hok
          cases hdT : decT (removeUnsignedTop v).2 with
          | error m =>
            rw [hdT] at hok
            exact Except.noConfusion hok
          | ok parsed =>
            rw [hdT] at hok
            cases hcan : canonicalize bytes with
            | error m =>
              rw [hcan] at hok
              exact Except.noConfusion hok
            | ok can =>
              rw [hcan] at hok
              simp only [Except.ok.injEq] at hok
              subst hok
              refine ⟨rfl, rfl, rfl, fun hnone => Option.noConfusion hnone, ?_⟩
              intro uv' huv'
              injection huv' with h
              subst h
              exact ⟨u, hdU, rfl⟩
  · intro err hparse
    rw [FrozenStruct.from_slice, hparse]
    rfl
  · intro v uv msg hparse hu hdU
    rw [FrozenStruct.from_slice, hparse]
    simp only [FrozenStruct.from_sliceAux, FrozenStruct.from_sliceParsed]
    rw [hu]
    simp only [FrozenStruct.decodeUnsignedOpt]
    rw [hdU]
  · intro v msg hparse hu hdT
    rw [FrozenStruct.from_slice, hparse]
    simp only [FrozenStruct.from_sliceAux, FrozenStruct.from_sliceParsed]
    rcases hu with hnone | ⟨uv, u, hsome, hdU⟩
    · rw [hnone]
      simp only [FrozenStruct.decodeUnsignedOpt]
      rw [hdT]
    · rw [hsome]
      simp only [FrozenStruct.decodeUnsignedOpt]
      rw [hdU, hdT]

theorem from_slice_spec_witness :
    ∃ v, parseJson c5Bytes = .ok v ∧
      c5Frozen.serialized = some c5Bytes ∧
      canonicalize c5Bytes = .ok c5Frozen.canonical ∧
      decodeSimpleSigned (removeUnsignedTop v).2 = .ok c5Frozen.parsed ∧
      ((removeUnsignedTop v).1 = none → c5Frozen.unsigned = none) ∧
      (∀ uv, (removeUnsignedTop v).1 = some uv →
        ∃ u, (Except.ok uv : Except String Json) = .ok u ∧
          c5Frozen.unsigned = some u) :=
  (from_slice_spec decodeSimpleSigned Except.ok c5Bytes).1 c5Frozen rfl

/-! ## Scanner lemmas: the serializer's output has no insignificant
whitespace, and whitespace compaction leaves it unchanged. -/

theorem scanEnd_append (st : SState) (a b : List Char) :
    scanEnd st (a ++ b) = scanEnd (scanEnd st a) b := by
  induction a generalizing st with
  | nil => rfl
  | cons c cs ih => simp [scanEnd, ih]

theorem compactFrom_append (st : SState) (a b : List Char) :
    compactFrom st (a ++ b) = compactFrom st a ++ compactFrom (scanEnd st a) b := by
  induction a generalizing st with
  | nil => rfl
  | cons c cs ih =>
    simp only [List.cons_append, compactFrom, scanEnd, List.append_eq]
    by_cases h : (!st.1 && isWsChar c) = true
    · rw [if_pos h, if_pos h, ih]
    · rw [if_neg h, if_neg h, ih]
      rfl

theorem wsFreeFrom_append (st : SState) (a b : List Char) :
    wsFreeFrom st (a ++ b) = (wsFreeFrom st a && wsFreeFrom (scanEnd st a) b) := by
  induction a generalizing st with
  | nil => rfl
  | cons c cs ih =>
    simp only [List.cons_append, wsFreeFrom, scanEnd, List.append_eq, ih, Bool.and_assoc]

theorem plain_run (l : List Char) (h : ∀ c ∈ l, plainChar c) :
    compactFrom (false, false) l = l ∧
    scanEnd (false, false) l = (false, false) ∧
    wsFreeFrom (false, false) l = true := by
  induction l with
  | nil => exact ⟨rfl, rfl, rfl⟩
  | cons c cs ih =>
    obtain ⟨hws, hq⟩ := h c (List.mem_cons_self c cs)
    have hstep : sstep (false, false) c = (false, false) := by
      simp [sstep, hq]
    have ihr := ih fun d hd => h d (List.mem_cons_of_mem c hd)
    refine ⟨?_, ?_, ?_⟩
    · simp [compactFrom, hws, hstep, ihr.1]
    · simp [scanEnd, hstep, ihr.2.1]
    · simp [wsFreeFrom, hws, hstep, ihr.2.2]

/-- Inside a string literal the scanner keeps every character; the
escaped form of a character returns the state to (in-string, no escape)
and never leaves the string. -/
theorem escapeChar_run (c : Char) :
    compactFrom (true, false) (escapeChar c) = escapeChar c ∧
    scanEnd (true, false) (escapeChar c) = (true, false) ∧
    wsFreeFrom (true, false) (escapeChar c) = true := by
  unfold escapeChar
  by_cases h1 : c = '"'
  · simp only [if_pos h1]; exact ⟨by decide, by decide, by decide⟩
  rw [if_neg h1]
  by_cases h2 : c = '\\'
  · simp only [if_pos h2]; exact ⟨by decide, by decide, by decide⟩
  rw [if_neg h2]
  by_cases h3 : c = Char.ofNat 8
  · simp only [if_pos h3]; exact ⟨by decide, by decide, by decide⟩
  rw [if_neg h3]
  by_cases h4 : c = Char.ofNat 12
  · simp only [if_pos h4]; exact ⟨by decide, by decide, by decide⟩
  rw [if_neg h4]
  by_cases h5 : c = '\n'
  · simp only [if_pos h5]; exact ⟨by decide, by decide, by decide⟩
  rw [if_neg h5]
  by_cases h6 : c = '\r'
  · simp only [if_pos h6]; exact ⟨by decide, by decide, by decide⟩
  rw [if_neg h6]
  by_cases h7 : c = '\t'
  · simp only [if_pos h7]; exact ⟨by decide, by decide, by decide⟩
  rw [if_neg h7]
  by_cases h8 : c.toNat < 32
  · rw [if_pos h8]
    have hhi : c.toNat / 16 < 16 := by omega
    have hlo : c.toNat % 16 < 16 := by omega
    have hex_plain : ∀ n, n < 16 → hexChar n ≠ '\\' ∧ hexChar n ≠ '"' := by
      intro n hn
      interval_cases n <;> exact ⟨by decide, by decide⟩
    obtain ⟨ha1, ha2⟩ := hex_plain _ hhi
    obtain ⟨hb1, hb2⟩ := hex_plain _ hlo
    have sa : sstep (true, false) (hexChar (c.toNat / 16)) = (true, false) := by
      simp [sstep, ha1, ha2]
    have sb : sstep (true, false) (hexChar (c.toNat % 16)) = (true, false) := by
      simp [sstep, hb1, hb2]
    refine ⟨?_, ?_, ?_⟩
    · simp [compactFrom, sstep, ha1, ha2, hb1, hb2]
    · simp [scanEnd, sstep, ha1, ha2, hb1, hb2]
    · simp [wsFreeFrom, sstep, ha1, ha2, hb1, hb2, isWsChar]
  · rw [if_neg h8]
    have hstep : sstep (true, false) c = (true, false) := by
      simp [sstep, h1, h2]
    refine ⟨?_, ?_, ?_⟩
    · simp [compactFrom, hstep]
    · simp [scanEnd, hstep]
    · simp [wsFreeFrom, hstep]

theorem escapeStr_run (s : List Char) :
    compactFrom (true, false) (escapeStr s) = escapeStr s ∧
    scanEnd (true, false) (escapeStr s) = (true, false) ∧
    wsFreeFrom (true, false) (escapeStr s) = true := by
  induction s with
  | nil => exact ⟨rfl, rfl, rfl⟩
  | cons c cs ih =>
    have hc := escapeChar_run c
    refine ⟨?_, ?_, ?_⟩
    · rw [escapeStr, compactFrom_append, hc.1, hc.2.1, ih.1]
    · rw [escapeStr, scanEnd_append, hc.2.1, ih.2.1]
    · rw [escapeStr, wsFreeFrom_append, hc.2.2, hc.2.1, ih.2.2]
      rfl

theorem strLit_run (s : String) :
    compactFrom (false, false) (strLit s) = strLit s ∧
    scanEnd (false, false) (strLit s) = (false, false) ∧
    wsFreeFrom (false, false) (strLit s) = true := by
  have hesc := escapeStr_run s.data
  have hstep : sstep (false, false) '"' = (true, false) := by decide
  have hclose : sstep (true, false) '"' = (false, false) := by decide
  refine ⟨?_, ?_, ?_⟩
  · rw [strLit]
    simp only [compactFrom, isWsChar]
    rw [if_neg (by decide), hstep, compactFrom_append, hesc.1, hesc.2.1]
    simp [compactFrom, hclose]
  · rw [strLit]
    simp only [scanEnd]
    rw [hstep, scanEnd_append, hesc.2.1]
    simp [scanEnd, hclose]
  · rw [strLit]
    simp only [wsFreeFrom]
    rw [hstep, wsFreeFrom_append, hesc.2.2, hesc.2.1]
    simp [wsFreeFrom, hclose, isWsChar]

theorem natChars_digit (n : Nat) : ∀ c ∈ natChars n, 48 ≤ c.toNat ∧ c.toNat ≤ 57 := by
  induction n using Nat.strong_induction_on with
  | _ n ih =>
    rw [natChars]
    by_cases h : n < 10
    · rw [dif_pos h]
      intro c hc
      rw [List.mem_singleton] at hc
      subst hc
      interval_cases n <;> exact ⟨by decide, by decide⟩
    · rw [dif_neg h]
      intro c hc
      rcases List.mem_append.mp hc with hc | hc
      · exact ih (n / 10) (Nat.div_lt_self (by omega) (by omega)) c hc
      · rw [List.mem_singleton] at hc
        subst hc
        have hm : n % 10 < 10 := Nat.mod_lt _ (by omega)
        set m := n % 10 with hmdef
        interval_cases m <;> exact ⟨by decide, by decide⟩

theorem digit_plain (c : Char) (h : 48 ≤ c.toNat ∧ c.toNat ≤ 57) : plainChar c := by
  have h1 : c ≠ ' ' := by rintro rfl; exact absurd h (by decide)
  have h2 : c ≠ '\t' := by rintro rfl; exact absurd h (by decide)
  have h3 : c ≠ '\n' := by rintro rfl; exact absurd h (by decide)
  have h4 : c ≠ '\r' := by rintro rfl; exact absurd h (by decide)
  have h5 : c ≠ '"' := by rintro rfl; exact absurd h (by decide)
  exact ⟨by simp [isWsChar, h1, h2, h3, h4], h5⟩

theorem intChars_plain (i : Int) : ∀ c ∈ intChars i, plainChar c := by
  unfold intChars
  by_cases h : i < 0
  · rw [if_pos h]
    intro c hc
    rcases List.mem_cons.mp hc with rfl | hc
    · exact ⟨by decide, by decide⟩
    · exact digit_plain c (natChars_digit _ c hc)
  · rw [if_neg h]
    intro c hc
    exact digit_plain c (natChars_digit _ c hc)

theorem run_cons (c : Char) (l : List Char) (hc : plainChar c)
    (h : compactFrom (false, false) l = l ∧ scanEnd (false, false) l = (false, false) ∧
      wsFreeFrom (false, false) l = true) :
    compactFrom (false, false) (c :: l) = c :: l ∧
    scanEnd (false, false) (c :: l) = (false, false) ∧
    wsFreeFrom (false, false) (c :: l) = true := by
  have hstep : sstep (false, false) c = (false, false) := by simp [sstep, hc.2]
  refine ⟨?_, ?_, ?_⟩
  · simp [compactFrom, hc.1, hstep, h.1]
  · simp [scanEnd, hstep, h.2.1]
  · simp [wsFreeFrom, hc.1, hstep, h.2.2]

theorem run_append (a b : List Char)
    (ha : compactFrom (false, false) a = a ∧ scanEnd (false, false) a = (false, false) ∧
      wsFreeFrom (false, false) a = true)
    (hb : compactFrom (false, false) b = b ∧ scanEnd (false, false) b = (false, false) ∧
      wsFreeFrom (false, false) b = true) :
    compactFrom (false, false) (a ++ b) = a ++ b ∧
    scanEnd (false, false) (a ++ b) = (false, false) ∧
    wsFreeFrom (false, false) (a ++ b) = true := by
  refine ⟨?_, ?_, ?_⟩
  · rw [compactFrom_append, ha.1, ha.2.1, hb.1]
  · rw [scanEnd_append, ha.2.1, hb.2.1]
  · rw [wsFreeFrom_append, ha.2.2, ha.2.1, hb.2.2]
    rfl

mutual

theorem jser_scan : ∀ v : Json,
    compactFrom (false, false) (jser v) = jser v ∧
    scanEnd (false, false) (jser v) = (false, false) ∧
    wsFreeFrom (false, false) (jser v) = true
  | .obj o =>
    run_cons '{' _ ⟨by decide, by decide⟩
      (run_append _ _ (jserObj_scan o) (plain_run _ (by decide)))
  | .arr l =>
    run_cons '[' _ ⟨by decide, by decide⟩
      (run_append _ _ (jserList_scan l) (plain_run _ (by decide)))
  | .str s => strLit_run s
  | .num i => plain_run _ (fun c hc => intChars_plain i c hc)
  | .bool true => plain_run _ (by decide)
  | .bool false => plain_run _ (by decide)
  | .null => plain_run _ (by decide)

theorem jserList_scan : ∀ l : JsonList,
    compactFrom (false, false) (jserList l) = jserList l ∧
    scanEnd (false, false) (jserList l) = (false, false) ∧
    wsFreeFrom (false, false) (jserList l) = true
  | .nil => ⟨rfl, rfl, rfl⟩
  | .cons v .nil => jser_scan v
  | .cons v (.cons w tl) =>
    run_append _ _ (jser_scan v)
      (run_cons ',' _ ⟨by decide, by decide⟩ (jserList_scan (.cons w tl)))

theorem jserObj_scan : ∀ o : JsonObj,
    compactFrom (false, false) (jserObj o) = jserObj o ∧
    scanEnd (false, false) (jserObj o) = (false, false) ∧
    wsFreeFrom (false, false) (jserObj o) = true
  | .nil => ⟨rfl, rfl, rfl⟩
  | .cons k v .nil =>
    run_append _ _ (strLit_run k)
      (run_cons ':' _ ⟨by decide, by decide⟩ (jser_scan v))
  | .cons k v (.cons k' v' tl) =>
    run_append _ _
      (run_append _ _ (strLit_run k)
        (run_cons ':' _ ⟨by decide, by decide⟩ (jser_scan v)))
      (run_cons ',' _ ⟨by decide, by decide⟩ (jserObj_scan (.cons k' v' tl)))

end

/-! ## Object-map lemmas (the `serde_json::Value` object model) -/

theorem objLookup_objInsert_self (k : String) (v : Json) :
    ∀ o : JsonObj, objLookup k (objInsert k v o) = some v
  | .nil => by simp [objInsert, objLookup]
  | .cons k0 v0 tl => by
    by_cases h1 : k < k0
    · simp [objInsert, objLookup, h1]
    · by_cases h2 : k = k0
      · simp [objInsert, objLookup, h1, h2]
      · simp [objInsert, objLookup, h1, h2, objLookup_objInsert_self k v tl]

theorem objLookup_objInsert_ne (k k' : String) (v : Json) (h : k' ≠ k) :
    ∀ o : JsonObj, objLookup k' (objInsert k v o) = objLookup k' o
  | .nil => by simp [objInsert, objLookup, h]
  | .cons k0 v0 tl => by
    by_cases h1 : k < k0
    · simp [objInsert, objLookup, h1, h]
    · by_cases h2 : k = k0
      · subst h2
        simp [objInsert, objLookup, h1, h]
      · by_cases h3 : k' = k0
        · simp [objInsert, objLookup, h1, h2, h3]
        · simp [objInsert, objLookup, h1, h2, h3, objLookup_objInsert_ne k k' v h tl]

theorem mem_objKeys_objInsert {k' k : String} {v : Json} :
    ∀ {o : JsonObj}, k' ∈ objKeys (objInsert k v o) → k' = k ∨ k' ∈ objKeys o
  | .nil, h => by
    simp only [objInsert, objKeys] at h
    rcases List.mem_singleton.mp h with rfl
    exact Or.inl rfl
  | .cons k0 v0 tl, h => by
    by_cases h1 : k < k0
    · simp only [objInsert, if_pos h1, objKeys] at h
      rcases List.mem_cons.mp h with rfl | h
      · exact Or.inl rfl
      · exact Or.inr h
    · by_cases h2 : k = k0
      · simp only [objInsert, if_neg h1, if_pos h2, objKeys] at h
        rcases List.mem_cons.mp h with rfl | h
        · exact Or.inl rfl
        · exact Or.inr (List.mem_cons_of_mem k0 h)
      · simp only [objInsert, if_neg h1, if_neg h2, objKeys] at h
        rcases List.mem_cons.mp h with rfl | h
        · exact Or.inr (List.mem_cons_self _ _)
        · rcases mem_objKeys_objInsert h with h | h
          · exact Or.inl h
          · exact Or.inr (List.mem_cons_of_mem k0 h)

theorem sortedDeepObj_cons_iff (k : String) (v : Json) :
    ∀ tl : JsonObj, sortedDeepObj (.cons k v tl) = true ↔
      sortedDeep v = true ∧ sortedDeepObj tl = true ∧ ∀ k' ∈ objKeys tl, k < k'
  | .nil => by simp [sortedDeepObj, objKeys]
  | .cons k1 v1 tl1 => by
    simp only [sortedDeepObj, Bool.and_eq_true, decide_eq_true_eq, objKeys]
    constructor
    · rintro ⟨⟨hk, hv⟩, hrest⟩
      have h1 := (sortedDeepObj_cons_iff k1 v1 tl1).mp hrest
      refine ⟨hv, hrest, ?_⟩
      intro k' hk'
      rcases List.mem_cons.mp hk' with rfl | hk'
      · exact hk
      · exact lt_trans hk (h1.2.2 k' hk')
    · rintro ⟨hv, hrest, hall⟩
      exact ⟨⟨hall k1 (List.mem_cons_self _ _), hv⟩, hrest⟩

theorem sortedDeep_objInsert {k : String} {v : Json} (hv : sortedDeep v = true) :
    ∀ {o : JsonObj}, sortedDeepObj o = true → sortedDeepObj (objInsert k v o) = true
  | .nil, _ => by simp [objInsert, sortedDeepObj, hv]
  | .cons k0 v0 tl, ho => by
    have hp := (sortedDeepObj_cons_iff k0 v0 tl).mp ho
    by_cases h1 : k < k0
    · simp only [objInsert, if_pos h1]
      rw [sortedDeepObj_cons_iff]
      refine ⟨hv, ho, ?_⟩
      intro k' hk'
      simp only [objKeys] at hk'
      rcases List.mem_cons.mp hk' with rfl | hk'
      · exact h1
      · exact lt_trans h1 (hp.2.2 k' hk')
    · by_cases h2 : k = k0
      · simp only [objInsert, if_neg h1, if_pos h2]
        rw [sortedDeepObj_cons_iff]
        exact ⟨hv, hp.2.1, by simpa [h2] using hp.2.2⟩
      · have hk0 : k0 < k := by
          rcases lt_trichotomy k k0 with h | h | h
          · exact absurd h h1
          · exact absurd h h2
          · exact h
        simp only [objInsert, if_neg h1, if_neg h2]
        rw [sortedDeepObj_cons_iff]
        refine ⟨hp.1, sortedDeep_objInsert hv hp.2.1, ?_⟩
        intro k' hk'
        rcases mem_objKeys_objInsert hk' with rfl | hk'
        · exact hk0
        · exact hp.2.2 k' hk'

mutual

theorem toValue_sorted : ∀ v : Json, sortedDeep (toValue v) = true
  | .obj o => toValueObj_sorted o
  | .arr l => toValueList_sorted l
  | .str _ => rfl
  | .num _ => rfl
  | .bool _ => rfl
  | .null => rfl

theorem toValueList_sorted : ∀ l : JsonList, sortedDeepList (toValueList l) = true
  | .nil => rfl
  | .cons v tl => by
    simp only [toValueList, sortedDeepList, Bool.and_eq_true]
    exact ⟨toValue_sorted v, toValueList_sorted tl⟩

theorem toValueObj_sorted : ∀ o : JsonObj, sortedDeepObj (toValueObj o) = true
  | .nil => rfl
  | .cons k v tl =>
    sortedDeep_objInsert (toValue_sorted v) (toValueObj_sorted tl)

end

theorem sortedDeepObj_pairwise :
    ∀ {o : JsonObj}, sortedDeepObj o = true → (objKeys o).Pairwise (· < ·)
  | .nil, _ => List.Pairwise.nil
  | .cons k v tl, h => by
    have hp := (sortedDeepObj_cons_iff k v tl).mp h
    simp only [objKeys]
    exact List.pairwise_cons.mpr ⟨hp.2.2, sortedDeepObj_pairwise hp.2.1⟩

theorem objLookup_eq_none_iff (k : String) :
    ∀ o : JsonObj, objLookup k o = none ↔ k ∉ objKeys o
  | .nil => by simp [objLookup, objKeys]
  | .cons k0 v0 tl => by
    by_cases hk : k = k0
    · subst hk
      simp [objLookup, objKeys]
    · simp [objLookup, objKeys, hk, objLookup_eq_none_iff k tl]

theorem obj_ext : ∀ {m1 m2 : JsonObj}, (objKeys m1).Pairwise (· < ·) →
    (objKeys m2).Pairwise (· < ·) →
    (∀ k, objLookup k m1 = objLookup k m2) → m1 = m2
  | .nil, .nil, _, _, _ => rfl
  | .nil, .cons k2 v2 t2, _, _, h => by
    have := h k2
    simp [objLookup] at this
  | .cons k1 v1 t1, .nil, _, _, h => by
    have := h k1
    simp [objLookup] at this
  | .cons k1 v1 t1, .cons k2 v2 t2, h1, h2, h => by
    simp only [objKeys] at h1 h2
    have hp1 := List.pairwise_cons.mp h1
    have hp2 := List.pairwise_cons.mp h2
    have hkeq : k1 = k2 := by
      rcases lt_trichotomy k1 k2 with hlt | heq | hgt
      · exfalso
        have hl := h k1
        rw [show objLookup k1 (.cons k1 v1 t1) = some v1 by simp [objLookup]] at hl
        have hne : k1 ≠ k2 := ne_of_lt hlt
        rw [show objLookup k1 (.cons k2 v2 t2) = objLookup k1 t2 by
          simp [objLookup, hne]] at hl
        have hnm : k1 ∉ objKeys t2 := fun hmem =>
          (not_lt_of_gt (hp2.1 k1 hmem)) hlt
        rw [(objLookup_eq_none_iff k1 t2).mpr hnm] at hl
        cases hl
      · exact heq
      · exfalso
        have hl := h k2
        rw [show objLookup k2 (.cons k2 v2 t2) = some v2 by simp [objLookup]] at hl
        have hne : k2 ≠ k1 := ne_of_lt hgt
        rw [show objLookup k2 (.cons k1 v1 t1) = objLookup k2 t1 by
          simp [objLookup, hne]] at hl
        have hnm : k2 ∉ objKeys t1 := fun hmem =>
          (not_lt_of_gt hgt) (hp1.1 k2 hmem)
        rw [(objLookup_eq_none_iff k2 t1).mpr hnm] at hl
        cases hl
    subst hkeq
    have hveq : v1 = v2 := by
      have hl := h k1
      simpa [objLookup] using hl
    subst hveq
    have htl : t1 = t2 := by
      refine obj_ext hp1.2 hp2.2 ?_
      intro k
      by_cases hk : k = k1
      · subst hk
        have hn1 : k ∉ objKeys t1 := fun hmem => absurd (hp1.1 k hmem) (lt_irrefl k)
        have hn2 : k ∉ objKeys t2 := fun hmem => absurd (hp2.1 k hmem) (lt_irrefl k)
        rw [(objLookup_eq_none_iff k t1).mpr hn1, (objLookup_eq_none_iff k t2).mpr hn2]
      · have hl := h k
        simpa [objLookup, hk] using hl
    rw [htl]

theorem objLookup_toValueObj (k : String) :
    ∀ o : JsonObj, objLookup k (toValueObj o) = (objLookup k o).map toValue
  | .nil => rfl
  | .cons k0 v0 tl => by
    by_cases hk : k = k0
    · subst hk
      simp [toValueObj, objLookup_objInsert_self, objLookup]
    · simp only [toValueObj, objLookup_objInsert_ne k0 k (toValue v0) hk, objLookup,
        if_neg hk]
      exact objLookup_toValueObj k tl

theorem objLookup_objRemove_ne (k k' : String) (h : k' ≠ k) :
    ∀ o : JsonObj, objLookup k' (objRemove k o) = objLookup k' o
  | .nil => rfl
  | .cons k0 v0 tl => by
    by_cases h1 : k = k0
    · subst h1
      simp [objRemove, objLookup, h]
    · by_cases h2 : k' = k0
      · simp [objRemove, objLookup, h1, h2]
      · simp [objRemove, objLookup, h1, h2, objLookup_objRemove_ne k k' h tl]

theorem objLookup_objRemove_self (k : String) :
    ∀ o : JsonObj, (objKeys o).Nodup → objLookup k (objRemove k o) = none
  | .nil, _ => rfl
  | .cons k0 v0 tl, hnd => by
    simp only [objKeys, List.nodup_cons] at hnd
    by_cases h1 : k = k0
    · subst h1
      simp only [objRemove, if_pos rfl]
      exact (objLookup_eq_none_iff k tl).mpr hnd.1
    · simp only [objRemove, if_neg h1, objLookup, if_neg h1]
      exact objLookup_objRemove_self k tl hnd.2

theorem objKeys_objRemove_sublist (k : String) :
    ∀ o : JsonObj, (objKeys (objRemove k o)).Sublist (objKeys o)
  | .nil => List.Sublist.refl _
  | .cons k0 v0 tl => by
    by_cases h1 : k = k0
    · simp only [objRemove, if_pos h1, objKeys]
      exact List.sublist_cons_self k0 (objKeys tl)
    · simp only [objRemove, if_neg h1, objKeys]
      exact List.Sublist.cons₂ k0 (objKeys_objRemove_sublist k tl)

theorem objRemove_eq_self (k : String) :
    ∀ o : JsonObj, k ∉ objKeys o → objRemove k o = o
  | .nil, _ => rfl
  | .cons k0 v0 tl, h => by
    simp only [objKeys, List.mem_cons, not_or] at h
    simp only [objRemove, if_neg h.1]
    rw [objRemove_eq_self k tl h.2]

theorem objKeys_objRemove_filter (k : String) :
    ∀ o : JsonObj, (objKeys o).Nodup →
      objKeys (objRemove k o) = (objKeys o).filter (fun x => decide (x ≠ k))
  | .nil, _ => rfl
  | .cons k0 v0 tl, hnd => by
    simp only [objKeys, List.nodup_cons] at hnd
    by_cases h1 : k = k0
    · subst h1
      have hL : objRemove k (JsonObj.cons k v0 tl) = tl := by simp [objRemove]
      rw [hL]
      have hall : ∀ x ∈ objKeys tl, (fun x => decide (x ≠ k)) x = true := by
        intro x hx
        exact decide_eq_true fun hxk => hnd.1 (hxk ▸ hx)
      simp only [objKeys, List.filter_cons]
      rw [if_neg (by simp), List.filter_eq_self.mpr hall]
    · simp only [objRemove, if_neg h1, objKeys, List.filter_cons]
      rw [if_pos (by simp [Ne.symm h1]), objKeys_objRemove_filter k tl hnd.2]

theorem sortedDeepObj_objRemove (k : String) :
    ∀ o : JsonObj, sortedDeepObj o = true → sortedDeepObj (objRemove k o) = true
  | .nil, _ => rfl
  | .cons k0 v0 tl, h => by
    have hp := (sortedDeepObj_cons_iff k0 v0 tl).mp h
    by_cases h1 : k = k0
    · simp only [objRemove, if_pos h1]
      exact hp.2.1
    · simp only [objRemove, if_neg h1]
      rw [sortedDeepObj_cons_iff]
      refine ⟨hp.1, sortedDeepObj_objRemove k tl hp.2.1, ?_⟩
      intro k' hk'
      exact hp.2.2 k' ((objKeys_objRemove_sublist k tl).subset hk')

theorem encode_canonically_eq_jser (v : Json) :
    encode_canonically v = jser (stripTop (toValue v)) :=
  (jser_scan (stripTop (toValue v))).1

theorem sortedDeep_stripTop_toValue (v : Json) :
    sortedDeep (stripTop (toValue v)) = true := by
  have hw := toValue_sorted v
  cases hv : toValue v with
  | obj o =>
    rw [hv] at hw
    simp only [stripTop]
    exact sortedDeepObj_objRemove _ _ (sortedDeepObj_objRemove _ _ hw)
  | null => exact rfl
  | bool b => exact rfl
  | num n => rw [hv] at hw; exact hw
  | str s => rw [hv] at hw; exact hw
  | arr l => rw [hv] at hw; exact hw

/-- C2: `encode_canonically` removes the keys `signatures` and `unsigned`
only at the top level of an object (no effect when absent, no effect on
non-object values, nested fields of those names untouched), its output
serializes object keys in strict ascending byte order at every level
with arrays preserving element order, and the output contains no
insignificant whitespace (the compaction pass fixes the serializer's
output, which is already compact). -/
theorem encode_canonically_spec (v : Json) :
    encode_canonically v = jser (stripTop (toValue v)) ∧
    wsFree (encode_canonically v) = true ∧
    sortedDeep (stripTop (toValue v)) = true ∧
    (isObj v = false → stripTop (toValue v) = toValue v) ∧
    ("signatures" ∉ topKeys (toValue v) → "unsigned" ∉ topKeys (toValue v) →
      stripTop (toValue v) = toValue v) ∧
    topKeys (stripTop (toValue v)) =
      (topKeys (toValue v)).filter
        (fun x => decide (x ≠ "unsigned") && decide (x ≠ "signatures")) ∧
    (∀ k, k ≠ "signatures" → k ≠ "unsigned" →
      topLookup k (stripTop (toValue v)) = topLookup k (toValue v)) ∧
    (∀ l : JsonList,
      encode_canonically (Json.arr l) = '[' :: (jserList (toValueList l) ++ [']'])) := by
  refine ⟨encode_canonically_eq_jser v, ?_, sortedDeep_stripTop_toValue v, ?_, ?_, ?_, ?_, ?_⟩
  · rw [encode_canonically_eq_jser v]
    exact (jser_scan (stripTop (toValue v))).2.2
  · intro hno
    cases v with
    | null => rfl
    | bool b => rfl
    | num n => rfl
    | str s => rfl
    | arr l => rfl
    | obj o => simp [isObj] at hno
  · intro hs hu
    cases hv : toValue v with
    | obj o =>
      rw [hv] at hs hu
      simp only [topKeys] at hs hu
      simp only [stripTop]
      rw [objRemove_eq_self _ _ hs, objRemove_eq_self _ _ hu]
    | null => rfl
    | bool b => rfl
    | num n => rfl
    | str s => rfl
    | arr l => rfl
  · cases hv : toValue v with
    | obj o =>
      have hw := toValue_sorted v
      rw [hv] at hw
      have hnd : (objKeys o).Nodup :=
        ((sortedDeepObj_pairwise hw).imp fun hlt => ne_of_lt hlt)
      have hnd2 : (objKeys (objRemove "signatures" o)).Nodup :=
        hnd.sublist (objKeys_objRemove_sublist _ o)
      simp only [stripTop, topKeys]
      rw [objKeys_objRemove_filter _ _ hnd2, objKeys_objRemove_filter _ _ hnd,
        List.filter_filter]
    | null => rfl
    | bool b => rfl
    | num n => rfl
    | str s => rfl
    | arr l => rfl
  · intro k hks hku
    cases hv : toValue v with
    | obj o =>
      simp only [stripTop, topLookup]
      rw [objLookup_objRemove_ne _ _ hku, objLookup_objRemove_ne _ _ hks]
    | null => rfl
    | bool b => rfl
    | num n => rfl
    | str s => rfl
    | arr l => rfl
  · intro l
    rw [encode_canonically_eq_jser (Json.arr l)]
    rfl

theorem encode_canonically_spec_witness :
    stripTop (toValue (Json.obj (.cons "signatures" (Json.obj .nil) .nil))) =
      Json.obj .nil ∧
    stripTop (toValue (Json.str "signatures")) = toValue (Json.str "signatures") ∧
    topLookup "a" (stripTop (toValue (Json.obj (.cons "a" (Json.num 1) .nil)))) =
      topLookup "a" (toValue (Json.obj (.cons "a" (Json.num 1) .nil))) := by
  have h1 := encode_canonically_spec (Json.obj (.cons "signatures" (Json.obj .nil) .nil))
  have h2 := encode_canonically_spec (Json.str "signatures")
  have h3 := encode_canonically_spec (Json.obj (.cons "a" (Json.num 1) .nil))
  exact ⟨by decide,
    h2.2.2.2.1 (by decide),
    h3.2.2.2.2.2.2.1 "a" (by decide) (by decide)⟩

/-! ## Structural equivalence of values (field-identical up to object key
order), and determinism of the canonical encoder -/

mutual

theorem toValue_eq_of_equiv : ∀ a b : Json, equivJson a b = true → toValue a = toValue b
  | .null, .null, _ => rfl
  | .bool b1, .bool b2, h => by
    simp only [equivJson, beq_iff_eq] at h
    subst h
    rfl
  | .num n1, .num n2, h => by
    simp only [equivJson, beq_iff_eq] at h
    subst h
    rfl
  | .str s1, .str s2, h => by
    simp only [equivJson, beq_iff_eq] at h
    subst h
    rfl
  | .arr l1, .arr l2, h => by
    simp only [toValue]
    rw [toValueList_eq_of_equiv l1 l2 (by simpa [equivJson] using h)]
  | .obj o1, .obj o2, h => by
    simp only [equivJson, Bool.and_eq_true] at h
    obtain ⟨hle, hsub⟩ := h
    simp only [toValue]
    have hmaps :
        toValueObj o1 = toValueObj o2 := by
      refine obj_ext (sortedDeepObj_pairwise (toValueObj_sorted o1))
        (sortedDeepObj_pairwise (toValueObj_sorted o2)) ?_
      intro k
      rw [objLookup_toValueObj, objLookup_toValueObj]
      cases hk : objLookup k o1 with
      | some v =>
        obtain ⟨w, hw, heqvw⟩ := equivObjLe_lookup o1 o2 k v hle hk
        rw [hw]
        simp only [Option.map_some']
        rw [heqvw]
      | none =>
        have hnone2 : objLookup k o2 = none := by
          rw [objLookup_eq_none_iff] at hk ⊢
          intro hmem
          simp only [objKeysSubset, List.all_eq_true, decide_eq_true_eq] at hsub
          exact hk (hsub k hmem)
        rw [hnone2]
    rw [hmaps]
  | .null, .bool _, h => by simp [equivJson] at h
  | .null, .num _, h => by simp [equivJson] at h
  | .null, .str _, h => by simp [equivJson] at h
  | .null, .arr _, h => by simp [equivJson] at h
  | .null, .obj _, h => by simp [equivJson] at h
  | .bool _, .null, h => by simp [equivJson] at h
  | .bool _, .num _, h => by simp [equivJson] at h
  | .bool _, .str _, h => by simp [equivJson] at h
  | .bool _, .arr _, h => by simp [equivJson] at h
  | .bool _, .obj _, h => by simp [equivJson] at h
  | .num _, .null, h => by simp [equivJson] at h
  | .num _, .bool _, h => by simp [equivJson] at h
  | .num _, .str _, h => by simp [equivJson] at h
  | .num _, .arr _, h => by simp [equivJson] at h
  | .num _, .obj _, h => by simp [equivJson] at h
  | .str _, .null, h => by simp [equivJson] at h
  | .str _, .bool _, h => by simp [equivJson] at h
  | .str _, .num _, h => by simp [equivJson] at h
  | .str _, .arr _, h => by simp [equivJson] at h
  | .str _, .obj _, h => by simp [equivJson] at h
  | .arr _, .null, h => by simp [equivJson] at h
  | .arr _, .bool _, h => by simp [equivJson] at h
  | .arr _, .num _, h => by simp [equivJson] at h
  | .arr _, .str _, h => by simp [equivJson] at h
  | .arr _, .obj _, h => by simp [equivJson] at h
  | .obj _, .null, h => by simp [equivJson] at h
  | .obj _, .bool _, h => by simp [equivJson] at h
  | .obj _, .num _, h => by simp [equivJson] at h
  | .obj _, .str _, h => by simp [equivJson] at h
  | .obj _, .arr _, h => by simp [equivJson] at h

theorem toValueList_eq_of_equiv :
    ∀ l1 l2 : JsonList, equivJsonList l1 l2 = true → toValueList l1 = toValueList l2
  | .nil, .nil, _ => rfl
  | .cons v1 t1, .cons v2 t2, h => by
    simp only [equivJsonList, Bool.and_eq_true] at h
    simp only [toValueList]
    rw [toValue_eq_of_equiv v1 v2 h.1, toValueList_eq_of_equiv t1 t2 h.2]
  | .nil, .cons _ _, h => by simp [equivJsonList] at h
  | .cons _ _, .nil, h => by simp [equivJsonList] at h

theorem equivObjLe_lookup : ∀ (o1 o2 : JsonObj) (k : String) (v : Json),
    equivObjLe o1 o2 = true → objLookup k o1 = some v →
    ∃ w, objLookup k o2 = some w ∧ toValue v = toValue w
  | .nil, _, _, _, _, hl => by cases hl
  | .cons k0 v0 tl, o2, k, v, he, hl => by
    simp only [equivObjLe, Bool.and_eq_true] at he
    obtain ⟨hhead, htl⟩ := he
    by_cases hk : k = k0
    · subst hk
      rw [show objLookup k (JsonObj.cons k v0 tl) = some v0 from by simp [objLookup]] at hl
      injection hl with hl
      subst hl
      cases hw : objLookup k o2 with
      | none => rw [hw] at hhead; cases hhead
      | some w =>
        rw [hw] at hhead
        exact ⟨w, rfl, toValue_eq_of_equiv v0 w hhead⟩
    · simp only [objLookup, if_neg hk] at hl
      exact equivObjLe_lookup tl o2 k v htl hl

end

theorem objRemove_toValueObj_comm (k : String) (o : JsonObj)
    (hnd : (objKeys o).Nodup) :
    objRemove k (toValueObj o) = toValueObj (objRemove k o) := by
  have hndTv : (objKeys (toValueObj o)).Nodup :=
    (sortedDeepObj_pairwise (toValueObj_sorted o)).imp fun hlt => ne_of_lt hlt
  refine obj_ext
    (List.Pairwise.sublist (objKeys_objRemove_sublist k (toValueObj o))
      (sortedDeepObj_pairwise (toValueObj_sorted o)))
    (sortedDeepObj_pairwise (toValueObj_sorted (objRemove k o))) ?_
  intro k'
  by_cases hk : k' = k
  · subst hk
    rw [objLookup_objRemove_self k' _ hndTv, objLookup_toValueObj,
      objLookup_objRemove_self k' o hnd]
    rfl
  · rw [objLookup_objRemove_ne k k' hk, objLookup_toValueObj, objLookup_toValueObj,
      objLookup_objRemove_ne k k' hk]

theorem stripTop_toValue_comm (v : Json) (hnd : (topKeys v).Nodup) :
    stripTop (toValue v) = toValue (stripTop v) := by
  cases v with
  | obj o =>
    simp only [topKeys] at hnd
    simp only [stripTop, toValue]
    rw [objRemove_toValueObj_comm "signatures" o hnd,
      objRemove_toValueObj_comm "unsigned" (objRemove "signatures" o)
        (hnd.sublist (objKeys_objRemove_sublist _ o))]
  | null => rfl
  | bool b => rfl
  | num n => rfl
  | str s => rfl
  | arr l => rfl

/-- C6: two values that are field-identical except for their top-level
`signatures` and `unsigned` fields and object key insertion order
canonicalize to byte-identical output (determinism of the canonical
encoder; at the structured-value level the encoding carries no
whitespace, so whitespace differences cannot arise). -/
theorem canonicalize_deterministic (v1 v2 : Json)
    (h1 : (topKeys v1).Nodup) (h2 : (topKeys v2).Nodup)
    (heq : equivJson (stripTop v1) (stripTop v2) = true) :
    encode_canonically v1 = encode_canonically v2 := by
  rw [encode_canonically_eq_jser v1, encode_canonically_eq_jser v2,
    stripTop_toValue_comm v1 h1, stripTop_toValue_comm v2 h2,
    toValue_eq_of_equiv _ _ heq]

theorem canonicalize_deterministic_witness :
    encode_canonically
      (Json.obj (.cons "b" (Json.num 1) (.cons "a" (Json.num 2) .nil))) =
    encode_canonically
      (Json.obj (.cons "a" (Json.num 2) (.cons "b" (Json.num 1)
        (.cons "signatures" (Json.obj .nil) .nil)))) :=
  canonicalize_deterministic
    (Json.obj (.cons "b" (Json.num 1) (.cons "a" (Json.num 2) .nil)))
    (Json.obj (.cons "a" (Json.num 2) (.cons "b" (Json.num 1)
      (.cons "signatures" (Json.obj .nil) .nil))))
    (by decide) (by decide) (by decide)
